import Mathlib

/-!
# pip-time-machine: `static/js/app.js`

A shallow embedding of the functions of `static/js/app.js` and theorems about
them.

Conventions of the embedding.

* A JavaScript `Date` is represented by its time value: `Int` milliseconds
  since the epoch for a valid date; an Invalid Date (time value `NaN`) is a
  separate case.  The comparisons `<=` and `>` of the source compare time
  values, and every comparison with `NaN` is `false`.
* A JavaScript string is a Lean `String`; `null` is `none`.
* `releases` (the `releases` object of the registry reply) is the list of its
  `(version, releaseInfos)` entries in the order `Object.keys` enumerates
  them.
* The registry is a function from the number of fetches issued so far and
  the package name to the outcome of the fetch; the state of the process is
  the cache `VERSION_CACHE` together with the log of the fetches issued.
* The date parser of the host (`new Date(dateStr)`) is a parameter `dateOf`.
* The status line (`updateStatus`, `clearStatus`) and `console.warn` are
  notification sinks with no effect on any result; they are left out.
-/

namespace PipTimeMachine

/-! ## Data model -/

/-- What `new Date(release.upload_time)` evaluates to for one element of a
`releaseInfos` array. -/
inductive UploadTime where
  /-- Evaluating `release.upload_time` throws (`release` is `null` or
  `undefined`); the `catch` of the inner `try` swallows the exception. -/
  | unreadable : UploadTime
  /-- The string does not parse: `new Date(..)` is an Invalid Date. -/
  | invalid : UploadTime
  /-- The string parses to the time value `ms`. -/
  | parsed (ms : Int) : UploadTime
  deriving DecidableEq, Repr

/-- The `releases` object: `(version, releaseInfos)` in `Object.keys` order.
A `releaseInfos` that is `null` is the empty list here: line 56 returns for
both. -/
abbrev Releases := List (String × List UploadTime)

/-- The pair of loop variables `latestVersion`, `latestReleaseDate`. -/
structure Latest where
  latestVersion : Option String
  latestReleaseDate : Option Int
  deriving DecidableEq, Repr

/-- Lines 50-51: both variables start as `null`. -/
def Latest.init : Latest := ⟨none, none⟩

/-! ## The resolution loop of `getPackageVersionAsOfDate` (lines 50-72) -/

/-- Body of the inner `forEach` (lines 59-70) for one `release` of `version`.
`!latestReleaseDate` holds exactly when the variable is still `null`, since a
`Date` object is truthy. -/
def releaseStep (targetDate : Int) (version : String) (st : Latest) :
    UploadTime → Latest
  | .unreadable => st
  | .invalid => st
  | .parsed releaseDate =>
    if releaseDate ≤ targetDate then
      match st.latestReleaseDate with
      | none => ⟨some version, some releaseDate⟩
      | some latest =>
        if releaseDate > latest then ⟨some version, some releaseDate⟩ else st
    else st

/-- Body of the outer `forEach` (lines 55-71) for one key `version`. -/
def versionStep (targetDate : Int) (st : Latest) (entry : String × List UploadTime) :
    Latest :=
  if entry.2.isEmpty then st
  else entry.2.foldl (releaseStep targetDate entry.1) st

/-- The two nested loops, lines 54-72, run from a given state. -/
def resolveFrom (targetDate : Int) (st : Latest) (releases : Releases) : Latest :=
  releases.foldl (versionStep targetDate) st

/-- The resolution loop: the value of `latestVersion` after line 72. -/
def resolve (releases : Releases) (targetDate : Int) : Option String :=
  (resolveFrom targetDate Latest.init releases).latestVersion

/-- Every `(version, release)` pair in the order the loops visit them. -/
def artifacts (releases : Releases) : List (String × UploadTime) :=
  releases.flatMap fun entry => entry.2.map fun u => (entry.1, u)

/-- A release whose timestamp parses. -/
def UploadTime.parsable : UploadTime → Bool
  | .parsed _ => true
  | .unreadable => false
  | .invalid => false

/-- The release set with every release whose timestamp does not parse
removed. -/
def dropUnparsable (releases : Releases) : Releases :=
  releases.map fun entry => (entry.1, entry.2.filter UploadTime.parsable)

/-- The numpy example of the specification; the dates are
2014-09-07, 2015-02-28 and the target 2015-01-01, at midnight UTC. -/
def numpyReleases : Releases :=
  [("1.9.0", [.parsed 1410048000000]), ("1.9.1", [.parsed 1425081600000])]

/-- Two versions whose only releases carry the same timestamp. -/
def tieReleases : Releases :=
  [("1.0", [.parsed 5]), ("2.0", [.parsed 5])]

/-- A release set with a version without releases and a version released
after the date 3. -/
def sparseReleases : Releases :=
  [("0.1", []), ("0.2", [.parsed 7]), ("0.3", [.invalid, .parsed 2])]

/-- The version of the first release, in the order the loops visit them,
whose timestamp is `t`. -/
def firstWithTime (releases : Releases) (t : Int) : Option String :=
  ((artifacts releases).find? fun p => decide (p.2 = UploadTime.parsed t)).map Prod.fst

/-- The version of the last release, in the order the loops visit them,
whose timestamp is `t`. -/
def lastWithTime (releases : Releases) (t : Int) : Option String :=
  ((artifacts releases).reverse.find? fun p => decide (p.2 = UploadTime.parsed t)).map Prod.fst

/-! ## Strings -/

/-- The code points `String.prototype.trim` strips: ECMAScript WhiteSpace and
LineTerminator. -/
def isJsSpace (c : Char) : Bool :=
  let n := c.toNat
  n = 0x09 || n = 0x0A || n = 0x0B || n = 0x0C || n = 0x0D || n = 0x20 ||
  n = 0xA0 || n = 0x1680 || (0x2000 ≤ n && n ≤ 0x200A) || n = 0x2028 ||
  n = 0x2029 || n = 0x202F || n = 0x205F || n = 0x3000 || n = 0xFEFF

/-- The method `trim` on a list of characters. -/
def trimChars (s : List Char) : List Char :=
  ((s.dropWhile isJsSpace).reverse.dropWhile isJsSpace).reverse

/-- The method `s.trim()`. -/
def trim (s : String) : String := ⟨trimChars s.data⟩

/-- The method `s.startsWith(pre)`. -/
def startsWith (s pre : String) : Bool := pre.data.isPrefixOf s.data

/-- The method `includes` on lists of characters: `sub` occurs in the list. -/
def includesChars (sub : List Char) : List Char → Bool
  | [] => sub.isPrefixOf []
  | c :: cs => sub.isPrefixOf (c :: cs) || includesChars sub cs

/-- The method `s.includes(sub)`. -/
def includes (s sub : String) : Bool := includesChars sub.data s.data

/-- The method `split` on lists of characters, for a non-empty separator: scan
left to right, cut at each occurrence of `sep` and resume after it. `skip`
is the number of characters of a matched separator still to pass over. -/
def splitChars (sep : List Char) : Nat → List Char → List (List Char)
  | _, [] => [[]]
  | skip + 1, _ :: cs => splitChars sep skip cs
  | 0, c :: cs =>
    if sep.isPrefixOf (c :: cs) then [] :: splitChars sep (sep.length - 1) cs
    else
      match splitChars sep 0 cs with
      | [] => [[c]]
      | piece :: pieces => (c :: piece) :: pieces

/-- The method `s.split(sep)`, for a non-empty `sep`. -/
def split (s sep : String) : List String :=
  (splitChars sep.data 0 s.data).map String.mk

/-- The method `parts.join(sep)`. -/
def join (sep : String) : List String → String
  | [] => ""
  | [a] => a
  | a :: b :: rest => a ++ sep ++ join sep (b :: rest)

/-! ## `isRequirementLine` and `parsePackageName` -/

/-- Lines 88-91. The source returns `line && ..`, which is the empty string
or a boolean; the result here is its truthiness. -/
def isRequirementLine (line : String) : Bool :=
  let line := trim line
  line ≠ "" && !startsWith line "#" && !startsWith line "-" && !startsWith line "git+"

/-- Lines 98-116. `split` returns a non-empty array, so `[0]` is defined. -/
def parsePackageName (line : String) : String :=
  if includes line "==" then trim ((split line "==").headD "")
  else if includes line ">=" then trim ((split line ">=").headD "")
  else if includes line "<=" then trim ((split line "<=").headD "")
  else if includes line "~=" then trim ((split line "~=").headD "")
  else if includes line ">" then trim ((split line ">").headD "")
  else if includes line "<" then trim ((split line "<").headD "")
  else if includes line "@" then trim ((split line "@").headD "")
  else trim line

/-- The ordered operators `parsePackageName` tries. -/
def operators : List String := ["==", ">=", "<=", "~=", ">", "<", "@"]

/-! ## `toISOString().slice(0,10)` -/

/-- The decimal digit `n % 10`. -/
def digitChar (n : Nat) : Char := Char.ofNat (48 + n % 10)

/-- A number as two decimal digits. -/
def pad2 (n : Nat) : List Char := [digitChar (n / 10), digitChar n]

/-- A number as four decimal digits. -/
def pad4 (n : Nat) : List Char := digitChar (n / 1000) :: digitChar (n / 100) :: pad2 n

/-- A number as six decimal digits. -/
def pad6 (n : Nat) : List Char := digitChar (n / 100000) :: digitChar (n / 10000) :: pad4 n

/-- Year, month and day (UTC, proleptic Gregorian) of the day number
`day = floor(t / msPerDay)`: ECMAScript `YearFromTime`, `MonthFromTime + 1`
and `DateFromTime`. -/
def civilFromDays (day : Int) : Int × Nat × Nat :=
  let z := day + 719468
  let era := z / 146097
  let doe := (z - era * 146097).toNat
  let yoe := (doe - doe / 1460 + doe / 36524 - doe / 146096) / 365
  let doy := doe - (365 * yoe + yoe / 4 - yoe / 100)
  let mp := (5 * doy + 2) / 153
  let d := doy - (153 * mp + 2) / 5 + 1
  let m := if mp < 10 then mp + 3 else mp - 9
  let y := (yoe : Int) + era * 400
  (if m ≤ 2 then y + 1 else y, m, d)

/-- The expression `targetDate.toISOString().slice(0,10)` for a valid date:
`YYYY-MM-DD` for the years 0 to 9999; outside them `toISOString` writes the
year with a sign and six digits, and the first ten characters end inside the
month. -/
def isoDay (targetDate : Int) : String :=
  let ymd := civilFromDays (targetDate / 86400000)
  let year :=
    if 0 ≤ ymd.1 ∧ ymd.1 ≤ 9999 then pad4 ymd.1.toNat
    else (if 0 ≤ ymd.1 then '+' else '-') :: pad6 ymd.1.natAbs
  ⟨(year ++ '-' :: pad2 ymd.2.1 ++ '-' :: pad2 ymd.2.2).take 10⟩

/-! ## The registry, the cache and `getPackageVersionAsOfDate` -/

/-- Outcome of `fetch(url)` followed by `response.json()`. -/
inductive Response where
  /-- The promise of `fetch` rejects. -/
  | rejected : Response
  /-- A reply with `response.status` = `status`. `body` is `data.releases`;
  it is `none` when `response.json()` rejects or the reply has no `releases`
  object, in which case line 48 or line 54 throws. -/
  | reply (status : Nat) (body : Option Releases) : Response

/-- The property `response.ok`: a status in the range 200-299. -/
def Response.okStatus (status : Nat) : Bool := 200 ≤ status && status ≤ 299

/-- The registry: what the `n`-th `fetch` of the process (counting from 0)
answers when asked for a package. A registry that ignores `n` is fixed. -/
abbrev Registry := Nat → String → Response

/-- The object `VERSION_CACHE`: `none` for a key that is not a property
(`undefined`), `some none` for a stored `null`, `some (some v)` for a stored
string. Every key ends in `_` and ten characters of a date, so none is a
member of `Object.prototype`. -/
abbrev Cache := String → Option (Option String)

/-- Line 2: the empty object. -/
def Cache.empty : Cache := fun _ => none

/-- The assignment `VERSION_CACHE[key] = value`. -/
def Cache.set (c : Cache) (key : String) (value : Option String) : Cache :=
  fun k => if k = key then some value else c k

/-- The test `if (VERSION_CACHE[key])`: the stored value when it is truthy,
that is a non-empty string. -/
def Cache.truthy (c : Cache) (key : String) : Option String :=
  match c key with
  | some (some v) => if v = "" then none else some v
  | _ => none

/-- The process state the functions act on: the cache and the log of the
package names fetched from the registry, oldest first. -/
structure World where
  cache : Cache
  fetched : List String

/-- The state at start-up. -/
def World.init : World := ⟨Cache.empty, []⟩

/-- Line 24. -/
def cacheKey (packageName : String) (targetDate : Int) : String :=
  packageName ++ "_" ++ isoDay targetDate

/-- Lines 23-81. The result is the returned value and the state after the
call. -/
def getPackageVersionAsOfDate (registry : Registry) (w : World)
    (packageName : String) (targetDate : Int) : Option String × World :=
  match w.cache.truthy (cacheKey packageName targetDate) with
  | some cached => (some cached, w)
  | none =>
    let w1 : World := ⟨w.cache, w.fetched ++ [packageName]⟩
    match registry w.fetched.length packageName with
    | .rejected => (none, w1)
    | .reply status body =>
      if status = 404 then (none, w1)
      else if !Response.okStatus status then (none, w1)
      else
        match body with
        | none => (none, w1)
        | some releases =>
          let latestVersion := resolve releases targetDate
          (latestVersion,
            ⟨w1.cache.set (cacheKey packageName targetDate) latestVersion, w1.fetched⟩)

/-! ## `processSinglePackage` and `processRequirements` -/

/-- Lines 124-132; `if (version)` holds for a non-empty string. -/
def processSinglePackage (registry : Registry) (w : World)
    (packageName : String) (targetDate : Int) : Option String × World :=
  match getPackageVersionAsOfDate registry w packageName targetDate with
  | (some version, w1) =>
    if version = "" then (none, w1) else (some (packageName ++ "==" ++ version), w1)
  | (none, w1) => (none, w1)

/-- Lines 9-15, given the time value `dateOf dateStr` of `new Date(dateStr)`
(`none` for an Invalid Date): `none` stands for the thrown `Error`. -/
def parseDate (dateOf : String → Option Int) (dateStr : String) : Option Int :=
  dateOf dateStr

/-- Body of the `for` loop, lines 160-181: the element pushed on
`updatedRequirements` for `line`, and the state afterwards. A
`versionedPackage` that is not `null` contains `==` and so is truthy. -/
def processLine (registry : Registry) (targetDate : Int) (w : World)
    (line : String) : String × World :=
  if !isRequirementLine line then (line, w)
  else
    let packageName := parsePackageName line
    if packageName = "" then (line, w)
    else
      match processSinglePackage registry w packageName targetDate with
      | (some versionedPackage, w1) => (versionedPackage, w1)
      | (none, w1) => (line, w1)

/-- The `for` loop, lines 159-182: the array `updatedRequirements` and the
state after the last line. -/
def processLines (registry : Registry) (targetDate : Int) :
    World → List String → List String × World
  | w, [] => ([], w)
  | w, line :: rest =>
    let r := processLine registry targetDate w line
    let rs := processLines registry targetDate r.2 rest
    (r.1 :: rs.1, rs.2)

/-- Lines 140-186. `dateOf` is the date parser of the host (`new Date`). -/
def processRequirements (dateOf : String → Option Int) (registry : Registry)
    (w : World) (text dateStr : String) : String × World :=
  match parseDate dateOf dateStr with
  | none => ("", w)
  | some targetDate =>
    let lines := split text "\n"
    let r := processLines registry targetDate w lines
    (join "\n" r.1, r.2)

/-! ## Auxiliary definitions for the statements -/

/-- The `if` chain of `parsePackageName` over a list of operators. -/
def parseWith : List String → String → String
  | [], line => trim line
  | op :: rest, line =>
    if includes line op then trim ((split line op).headD "") else parseWith rest line

/-- The string `op` occurs in `line`. -/
def Occurs (op line : String) : Prop := ∃ a b : String, line = a ++ op ++ b

/-- The string `a` is the text of `line` before the first occurrence of `op`. -/
def BeforeFirst (op line a : String) : Prop :=
  (∃ b : String, line = a ++ op ++ b) ∧
  ∀ a' b' : String, line = a' ++ op ++ b' → a.length ≤ a'.length

/-- A sequence of calls of `getPackageVersionAsOfDate`, one after the other;
the state after the last. -/
def runCalls (registry : Registry) : World → List (String × Int) → World
  | w, [] => w
  | w, call :: rest =>
    runCalls registry (getPackageVersionAsOfDate registry w call.1 call.2).2 rest

/-- The date parser of the host at the two strings the examples use:
`2020-06-01` parses to midnight UTC of that day and `not-a-date` does not
parse. It is applied to no other string. -/
def sampleDateOf (dateStr : String) : Option Int :=
  if dateStr = "2020-06-01" then some 1590969600000 else none

/-- A registry that knows `flask`, released as 1.1.2 on 2020-04-03 and as
2.0.0 on 2021-05-11, and `requests`, first released on 2021-01-01. -/
def sampleRegistry : Registry := fun _ packageName =>
  if packageName = "flask" then
    .reply 200 (some [("1.1.2", [.parsed 1585872000000]), ("2.0.0", [.parsed 1620691200000])])
  else if packageName = "requests" then
    .reply 200 (some [("2.25.1", [.parsed 1609459200000])])
  else .reply 404 none

/-- A registry whose only release of any package has the empty string as
version identifier. -/
def emptyVersionRegistry : Registry := fun _ _ =>
  .reply 200 (some [("", [.parsed 0])])

/-- A registry where every package has the single version 7. -/
def sevenRegistry : Registry := fun _ _ =>
  .reply 200 (some [("7", [.parsed 0])])

/-- A registry where the only version of `a` holds a line feed, `b` has the
single version 7 and no other package exists. -/
def lineFeedRegistry : Registry := fun _ packageName =>
  if packageName = "a" then .reply 200 (some [("1\n2", [.parsed 0])])
  else if packageName = "b" then .reply 200 (some [("7", [.parsed 0])])
  else .reply 404 none

/-- A registry that answers 404 to every request. -/
def notFoundRegistry : Registry := fun _ _ => .reply 404 none

/-- A registry that answers 500 to every request. -/
def brokenRegistry : Registry := fun _ _ => .reply 500 none

/-- A registry that cannot be reached. -/
def unreachableRegistry : Registry := fun _ _ => .rejected

/-- The string has no line feed. -/
def NewlineFree (s : String) : Prop := '\n' ∉ s.data

/-- The release set a reply gives the loop of lines 54-72, if it gets that
far: `none` on the paths of lines 38-46 and 77-80 that return `null`. -/
def usableReleases : Response → Option Releases
  | .rejected => none
  | .reply status body =>
    if status = 404 then none else if !Response.okStatus status then none else body

/-- No version identifier of a release set the registry serves has a line
feed. -/
def VersionsNewlineFree (registry : Registry) : Prop :=
  ∀ n p releases, usableReleases (registry n p) = some releases →
    ∀ entry ∈ releases, NewlineFree entry.1

/-- No version the cache serves has a line feed. -/
def CacheNewlineFree (w : World) : Prop :=
  ∀ key v, w.cache.truthy key = some v → NewlineFree v

/-- The year within a 400-year era of the day `doe` of the era, as
`civilFromDays` computes it. -/
def yearOfEra (doe : Nat) : Nat := (doe - doe / 1460 + doe / 36524 - doe / 146096) / 365

/-- The first day of the year `yoe` of an era, counted from the start of the
era. -/
def yearStart (yoe : Nat) : Nat := 365 * yoe + yoe / 4 - yoe / 100

/-- A time value at midnight UTC of a day of the years 0000 to 9999: between
0000-01-01 and 9999-12-31. These are the dates `YYYY-MM-DD` names. -/
def DayInRange (t : Int) : Prop :=
  t % 86400000 = 0 ∧ -62167219200000 ≤ t ∧ t ≤ 253402214400000

/-- What lines 31-76 return for the reply `reg p` of a fixed registry when the
cache is not consulted: the resolution of the release set served for `p`, or
`null` when the fetch fails. -/
def uncached (reg : String → Response) (p : String) (targetDate : Int) : Option String :=
  match usableReleases (reg p) with
  | none => none
  | some releases => resolve releases targetDate

/-- The values returned by a sequence of calls of `getPackageVersionAsOfDate`,
one after the other. -/
def callResults (registry : Registry) : World → List (String × Int) → List (Option String)
  | _, [] => []
  | w, call :: rest =>
    (getPackageVersionAsOfDate registry w call.1 call.2).1 ::
      callResults registry (getPackageVersionAsOfDate registry w call.1 call.2).2 rest

/-- Every version the cache serves under the key of a call with a date in
range is what the uncached resolution of that call returns. -/
def Coherent (reg : String → Response) (w : World) : Prop :=
  ∀ key v, w.cache.truthy key = some v →
    ∀ p t, DayInRange t → cacheKey p t = key → uncached reg p t = some v

/-- A package with a release at the epoch and a release on the second day of
the year 10000. -/
def farFutureReply (_ : String) : Response :=
  .reply 200 (some [("1.0", [.parsed 0]), ("2.0", [.parsed 253402387200000])])

/-- An ASCII letter, an ASCII digit, `.`, `_` or `-`: the characters of a
package name. -/
def nameChar (c : Char) : Bool :=
  let n := c.toNat
  (48 ≤ n && n ≤ 57) || (65 ≤ n && n ≤ 90) || (97 ≤ n && n ≤ 122) ||
  n = 46 || n = 95 || n = 45

/-- A package name made of letters, digits, `.`, `_` and `-`. -/
def NameOk (p : String) : Prop := ∀ c ∈ p.data, nameChar c = true

/-- A fixed registry that resolves only names made of letters, digits, `.`,
`_` and `-`, and only to non-empty versions without a line feed. -/
def PlainRegistry (reg : String → Response) : Prop :=
  ∀ p t v, uncached reg p t = some v → NameOk p ∧ v ≠ "" ∧ NewlineFree v

/-- Every version the cache serves is without a line feed and stored for a
name made of letters, digits, `.`, `_` and `-`. -/
def CachePlain (w : World) : Prop :=
  ∀ p t v, w.cache.truthy (cacheKey p t) = some v → NameOk p ∧ NewlineFree v

/-- What a call `getPackageVersionAsOfDate(p, targetDate)` returns in the
state `w` with a fixed registry: the version the cache serves, or else the
uncached resolution. -/
def answer (reg : String → Response) (targetDate : Int) (w : World) (p : String) :
    Option String :=
  match w.cache.truthy (cacheKey p targetDate) with
  | some v => some v
  | none => uncached reg p targetDate

/-- The element `processLine` pushes for `line` when the call for a package
name `p` returns `f p`. -/
def pin (f : String → Option String) (line : String) : String :=
  if !isRequirementLine line then line
  else if parsePackageName line = "" then line
  else
    match f (parsePackageName line) with
    | some v => if v = "" then line else parsePackageName line ++ "==" ++ v
    | none => line

/-! ## Lemmas on the resolution loop -/

/-- One visit of the inner loop body, on a `(version, release)` pair. -/
def visit (targetDate : Int) (st : Latest) (p : String × UploadTime) : Latest :=
  releaseStep targetDate p.1 st p.2

/-- What the loop variables say about the pairs `l` visited so far. -/
inductive Tracks (targetDate : Int) (l : List (String × UploadTime)) : Latest → Prop
  | nothing : (∀ v t, (v, UploadTime.parsed t) ∈ l → targetDate < t) →
      Tracks targetDate l ⟨none, none⟩
  | found (v : String) (t : Int) : t ≤ targetDate →
      l.find? (fun p => decide (p.2 = UploadTime.parsed t)) = some (v, UploadTime.parsed t) →
      (∀ v' t', (v', UploadTime.parsed t') ∈ l → t' ≤ targetDate → t' ≤ t) →
      Tracks targetDate l ⟨some v, some t⟩

theorem versionStep_eq_foldl (targetDate : Int) (st : Latest)
    (entry : String × List UploadTime) :
    versionStep targetDate st entry = entry.2.foldl (releaseStep targetDate entry.1) st := by
  unfold versionStep
  cases h : entry.2 <;> simp

theorem resolveFrom_eq_visits (targetDate : Int) (releases : Releases) (st : Latest) :
    resolveFrom targetDate st releases = (artifacts releases).foldl (visit targetDate) st := by
  induction releases generalizing st with
  | nil => rfl
  | cons entry rest ih =>
    have hrest := ih (versionStep targetDate st entry)
    unfold resolveFrom at hrest ⊢
    unfold artifacts at hrest ⊢
    rw [List.foldl_cons, hrest, List.flatMap_cons, List.foldl_append, versionStep_eq_foldl,
      List.foldl_map]
    rfl

theorem tracks_snoc (targetDate : Int) (l : List (String × UploadTime)) (st : Latest)
    (p : String × UploadTime) (h : Tracks targetDate l st) :
    Tracks targetDate (l ++ [p]) (visit targetDate st p) := by
  obtain ⟨v0, u⟩ := p
  have keep : (∀ t, u = UploadTime.parsed t → targetDate < t) →
      Tracks targetDate (l ++ [(v0, u)]) st := by
    intro hu
    cases h with
    | nothing hn =>
      refine Tracks.nothing ?_
      intro v t hm
      rcases List.mem_append.1 hm with hm | hm
      · exact hn v t hm
      · simp only [List.mem_singleton, Prod.mk.injEq] at hm
        exact hu t hm.2.symm
    | found v t hle hfind hmax =>
      refine Tracks.found v t hle ?_ ?_
      · rw [List.find?_append, hfind]; rfl
      · intro v' t' hm hq
        rcases List.mem_append.1 hm with hm | hm
        · exact hmax v' t' hm hq
        · simp only [List.mem_singleton, Prod.mk.injEq] at hm
          have := hu t' hm.2.symm
          omega
  cases u with
  | unreadable => exact keep (by intro t ht; cases ht)
  | invalid => exact keep (by intro t ht; cases ht)
  | parsed t0 =>
    by_cases hq : t0 ≤ targetDate
    · cases h with
      | nothing hn =>
        have hv : visit targetDate ⟨none, none⟩ (v0, UploadTime.parsed t0) = ⟨some v0, some t0⟩ := by
          simp [visit, releaseStep, hq]
        rw [hv]
        refine Tracks.found v0 t0 hq ?_ ?_
        · have hnone : l.find? (fun p => decide (p.2 = UploadTime.parsed t0)) = none := by
            rw [List.find?_eq_none]
            intro x hx hpx
            obtain ⟨xv, xu⟩ := x
            simp only [decide_eq_true_eq] at hpx
            subst hpx
            have := hn xv t0 hx
            omega
          rw [List.find?_append, hnone]
          simp
        · intro v' t' hm hq'
          rcases List.mem_append.1 hm with hm | hm
          · have := hn v' t' hm
            omega
          · simp only [List.mem_singleton, Prod.mk.injEq, UploadTime.parsed.injEq] at hm
            omega
      | found v t hle hfind hmax =>
        by_cases hgt : t0 > t
        · have hv : visit targetDate ⟨some v, some t⟩ (v0, UploadTime.parsed t0)
              = ⟨some v0, some t0⟩ := by
            simp [visit, releaseStep, hq, hgt]
          rw [hv]
          refine Tracks.found v0 t0 hq ?_ ?_
          · have hnone : l.find? (fun p => decide (p.2 = UploadTime.parsed t0)) = none := by
              rw [List.find?_eq_none]
              intro x hx hpx
              obtain ⟨xv, xu⟩ := x
              simp only [decide_eq_true_eq] at hpx
              subst hpx
              have := hmax xv t0 hx hq
              omega
            rw [List.find?_append, hnone]
            simp
          · intro v' t' hm hq'
            rcases List.mem_append.1 hm with hm | hm
            · have := hmax v' t' hm hq'
              omega
            · simp only [List.mem_singleton, Prod.mk.injEq, UploadTime.parsed.injEq] at hm
              omega
        · have hv : visit targetDate ⟨some v, some t⟩ (v0, UploadTime.parsed t0)
              = ⟨some v, some t⟩ := by
            simp [visit, releaseStep, hq, hgt]
          rw [hv]
          refine Tracks.found v t hle ?_ ?_
          · rw [List.find?_append, hfind]; rfl
          · intro v' t' hm hq'
            rcases List.mem_append.1 hm with hm | hm
            · exact hmax v' t' hm hq'
            · simp only [List.mem_singleton, Prod.mk.injEq, UploadTime.parsed.injEq] at hm
              omega
    · have hv : visit targetDate st (v0, UploadTime.parsed t0) = st := by
        simp [visit, releaseStep, hq]
      rw [hv]
      exact keep (by intro t ht; cases ht; omega)

theorem tracks_visits (targetDate : Int) (l : List (String × UploadTime)) :
    Tracks targetDate l (l.foldl (visit targetDate) Latest.init) := by
  induction l using List.reverseRecOn with
  | nil => exact Tracks.nothing (by intro v t hm; cases hm)
  | append_singleton l p ih =>
    rw [List.foldl_append]
    exact tracks_snoc targetDate l _ p ih

theorem tracks_resolve (targetDate : Int) (releases : Releases) :
    Tracks targetDate (artifacts releases) (resolveFrom targetDate Latest.init releases) := by
  rw [resolveFrom_eq_visits]
  exact tracks_visits targetDate (artifacts releases)

theorem mem_artifacts {releases : Releases} {v : String} {u : UploadTime} :
    (v, u) ∈ artifacts releases ↔ ∃ infos, (v, infos) ∈ releases ∧ u ∈ infos := by
  unfold artifacts
  simp only [List.mem_flatMap, List.mem_map, Prod.mk.injEq, Prod.exists]
  constructor
  · rintro ⟨a, b, hab, u', hu', rfl, rfl⟩
    exact ⟨b, hab, hu'⟩
  · rintro ⟨infos, hm, hu⟩
    exact ⟨v, infos, hm, u, hu, rfl, rfl⟩

theorem releaseStep_unparsable (targetDate : Int) (version : String) (st : Latest)
    (u : UploadTime) (h : u.parsable = false) : releaseStep targetDate version st u = st := by
  cases u with
  | unreadable => rfl
  | invalid => rfl
  | parsed t => cases h

theorem foldl_releaseStep_filter (targetDate : Int) (version : String)
    (infos : List UploadTime) (st : Latest) :
    (infos.filter UploadTime.parsable).foldl (releaseStep targetDate version) st
      = infos.foldl (releaseStep targetDate version) st := by
  induction infos generalizing st with
  | nil => rfl
  | cons u rest ih =>
    cases hu : u.parsable with
    | true => rw [List.filter_cons_of_pos hu, List.foldl_cons, List.foldl_cons, ih]
    | false =>
      rw [List.filter_cons_of_neg (by simp [hu]), List.foldl_cons,
        releaseStep_unparsable targetDate version st u hu, ih]

theorem resolveFrom_dropUnparsable (targetDate : Int) (releases : Releases) (st : Latest) :
    resolveFrom targetDate st (dropUnparsable releases) = resolveFrom targetDate st releases := by
  induction releases generalizing st with
  | nil => rfl
  | cons entry rest ih =>
    have hstep : versionStep targetDate st (entry.1, entry.2.filter UploadTime.parsable)
        = versionStep targetDate st entry := by
      rw [versionStep_eq_foldl, versionStep_eq_foldl]
      exact foldl_releaseStep_filter targetDate entry.1 entry.2 st
    have hrest := ih (versionStep targetDate st entry)
    unfold resolveFrom dropUnparsable at hrest ⊢
    rw [List.map_cons, List.foldl_cons, List.foldl_cons, hstep]
    exact hrest

theorem resolve_some_spec (releases : Releases) (targetDate : Int) (v : String)
    (h : resolve releases targetDate = some v) :
    ∃ infos t, (v, infos) ∈ releases ∧ UploadTime.parsed t ∈ infos ∧ t ≤ targetDate ∧
      ∀ v' infos' t', (v', infos') ∈ releases → UploadTime.parsed t' ∈ infos' →
        t' ≤ targetDate → t' ≤ t := by
  have htr := tracks_resolve targetDate releases
  unfold resolve at h
  generalize resolveFrom targetDate Latest.init releases = st at htr h
  cases htr with
  | nothing hn => cases h
  | found v0 t hle hfind hmax =>
    cases h
    obtain ⟨infos, hm, hu⟩ := mem_artifacts.1 (List.mem_of_find?_eq_some hfind)
    exact ⟨infos, t, hm, hu, hle, fun v' infos' t' hm' hu' hq =>
      hmax v' t' (mem_artifacts.2 ⟨infos', hm', hu'⟩) hq⟩

/-! ## The resolution loop: claims C1-C5 -/

/-- C1. When the resolution loop yields a version `v`, some release of `v`
has a parsable timestamp `t` with `t ≤ targetDate`, and `t` is the maximum of
the parsable timestamps of the release set that are `≤ targetDate`. -/
theorem resolve_some_is_latest (releases : Releases) (targetDate : Int) (v : String)
    (h : resolve releases targetDate = some v) :
    ∃ infos t, (v, infos) ∈ releases ∧ UploadTime.parsed t ∈ infos ∧ t ≤ targetDate ∧
      ∀ v' infos' t', (v', infos') ∈ releases → UploadTime.parsed t' ∈ infos' →
        t' ≤ targetDate → t' ≤ t :=
  resolve_some_spec releases targetDate v h

/-- An instance: the numpy example of the specification resolves to 1.9.0. -/
theorem resolve_some_is_latest_witness :
    resolve numpyReleases 1420070400000 = some "1.9.0" ∧
    ∃ infos t, ("1.9.0", infos) ∈ numpyReleases ∧ UploadTime.parsed t ∈ infos ∧
      t ≤ 1420070400000 ∧
      ∀ v' infos' t', (v', infos') ∈ numpyReleases → UploadTime.parsed t' ∈ infos' →
        t' ≤ 1420070400000 → t' ≤ t :=
  ⟨by decide, resolve_some_is_latest numpyReleases 1420070400000 "1.9.0" (by decide)⟩

/-- C2. The resolution loop returns `null` or a version that is a key of the
release set with a release whose timestamp is `≤ targetDate`; a version `v`
whose releases are none, unparsable or later than `targetDate` is never
returned. -/
theorem resolve_null_or_qualifying (releases : Releases) (targetDate : Int) :
    (resolve releases targetDate = none ∨
      ∃ v infos t, resolve releases targetDate = some v ∧ (v, infos) ∈ releases ∧
        UploadTime.parsed t ∈ infos ∧ t ≤ targetDate) ∧
    ∀ v, (∀ infos t, (v, infos) ∈ releases → UploadTime.parsed t ∈ infos → targetDate < t) →
      resolve releases targetDate ≠ some v := by
  constructor
  · cases h : resolve releases targetDate with
    | none => exact Or.inl rfl
    | some v =>
      obtain ⟨infos, t, hm, hu, hle, _⟩ := resolve_some_spec releases targetDate v h
      exact Or.inr ⟨v, infos, t, rfl, hm, hu, hle⟩
  · intro v hv h
    obtain ⟨infos, t, hm, hu, hle, _⟩ := resolve_some_spec releases targetDate v h
    have := hv infos t hm hu
    omega

/-- An instance: a version without releases and a version released after the
date are not returned. -/
theorem resolve_null_or_qualifying_witness :
    (∀ infos t, ("0.1", infos) ∈ sparseReleases → UploadTime.parsed t ∈ infos → (3 : Int) < t) ∧
    (∀ infos t, ("0.2", infos) ∈ sparseReleases → UploadTime.parsed t ∈ infos → (3 : Int) < t) ∧
    resolve sparseReleases 3 ≠ some "0.1" ∧ resolve sparseReleases 3 ≠ some "0.2" ∧
    resolve sparseReleases 3 = some "0.3" := by
  have h1 : ∀ infos t, ("0.1", infos) ∈ sparseReleases → UploadTime.parsed t ∈ infos →
      (3 : Int) < t := by
    intro infos t hm hu
    simp [sparseReleases] at hm
    subst hm
    simp at hu
  have h2 : ∀ infos t, ("0.2", infos) ∈ sparseReleases → UploadTime.parsed t ∈ infos →
      (3 : Int) < t := by
    intro infos t hm hu
    simp [sparseReleases] at hm
    subst hm
    simp at hu
    omega
  exact ⟨h1, h2, (resolve_null_or_qualifying sparseReleases 3).2 "0.1" h1,
    (resolve_null_or_qualifying sparseReleases 3).2 "0.2" h2, by decide⟩

/-- C3, as the claim states it, fails: two versions share the maximum
qualifying timestamp 5, the version visited last with that timestamp is
`2.0`, and the loop returns `1.0`. -/
theorem resolve_tie_not_last :
    ("1.0", UploadTime.parsed 5) ∈ artifacts tieReleases ∧
    ("2.0", UploadTime.parsed 5) ∈ artifacts tieReleases ∧
    (∀ v t, (v, UploadTime.parsed t) ∈ artifacts tieReleases → t ≤ 10 → t ≤ 5) ∧
    lastWithTime tieReleases 5 = some "2.0" ∧
    resolve tieReleases 10 = some "1.0" ∧
    resolve tieReleases 10 ≠ lastWithTime tieReleases 5 := by
  refine ⟨by decide, by decide, ?_, by decide, by decide, by decide⟩
  intro v t hm _
  simp [artifacts, tieReleases] at hm
  omega

/-- C3, amended. When `m` is the maximum qualifying timestamp (the largest
parsable timestamp `≤ targetDate`), the loop returns the version of the
release visited first, in iteration order, among those with timestamp `m`;
so of two versions sharing `m` the one met first wins. -/
theorem resolve_tie_first (releases : Releases) (targetDate m : Int)
    (hle : m ≤ targetDate)
    (hex : ∃ v, (v, UploadTime.parsed m) ∈ artifacts releases)
    (hmax : ∀ v t, (v, UploadTime.parsed t) ∈ artifacts releases → t ≤ targetDate → t ≤ m) :
    resolve releases targetDate = firstWithTime releases m ∧
    resolve releases targetDate ≠ none := by
  have htr := tracks_resolve targetDate releases
  unfold resolve firstWithTime
  generalize resolveFrom targetDate Latest.init releases = st at htr
  obtain ⟨vm, hvm⟩ := hex
  cases htr with
  | nothing hn =>
    have := hn vm m hvm
    omega
  | found v t hq hfind hbest =>
    have h1 := hmax v t (List.mem_of_find?_eq_some hfind) hq
    have h2 := hbest vm m hvm hle
    have htm : t = m := by omega
    subst htm
    rw [hfind]
    exact ⟨rfl, by simp⟩

/-- An instance: of two versions released at the same instant the first one
is returned. -/
theorem resolve_tie_first_witness :
    (5 : Int) ≤ 10 ∧
    (∃ v, (v, UploadTime.parsed 5) ∈ artifacts tieReleases) ∧
    (∀ v t, (v, UploadTime.parsed t) ∈ artifacts tieReleases → t ≤ 10 → t ≤ 5) ∧
    firstWithTime tieReleases 5 = some "1.0" ∧
    resolve tieReleases 10 = firstWithTime tieReleases 5 ∧
    resolve tieReleases 10 ≠ none := by
  have hmax : ∀ v t, (v, UploadTime.parsed t) ∈ artifacts tieReleases → t ≤ 10 → t ≤ 5 := by
    intro v t hm _
    simp [artifacts, tieReleases] at hm
    omega
  have hex : ∃ v, (v, UploadTime.parsed 5) ∈ artifacts tieReleases := ⟨"1.0", by decide⟩
  exact ⟨by decide, hex, hmax, by decide,
    (resolve_tie_first tieReleases 10 5 (by decide) hex hmax).1,
    (resolve_tie_first tieReleases 10 5 (by decide) hex hmax).2⟩

/-- C4. Releases whose timestamp does not parse have no influence: the loop
returns on a release set what it returns on the set with every such release
removed. -/
theorem resolve_ignores_unparsable (releases : Releases) (targetDate : Int) :
    resolve releases targetDate = resolve (dropUnparsable releases) targetDate := by
  unfold resolve
  rw [resolveFrom_dropUnparsable]

/-- C5. The loop returns `null` exactly when no release has a parsable
timestamp `≤ targetDate`; in particular on the empty release set. -/
theorem resolve_null_iff (releases : Releases) (targetDate : Int) :
    (resolve releases targetDate = none ↔
      ∀ v infos t, (v, infos) ∈ releases → UploadTime.parsed t ∈ infos → targetDate < t) ∧
    resolve [] targetDate = none := by
  refine ⟨⟨?_, ?_⟩, rfl⟩
  · intro h v infos t hm hu
    have htr := tracks_resolve targetDate releases
    unfold resolve at h
    generalize resolveFrom targetDate Latest.init releases = st at htr h
    cases htr with
    | nothing hn => exact hn v t (mem_artifacts.2 ⟨infos, hm, hu⟩)
    | found v0 t0 _ _ _ => cases h
  · intro h
    cases hr : resolve releases targetDate with
    | none => rfl
    | some v =>
      obtain ⟨infos, t, hm, hu, hle, _⟩ := resolve_some_spec releases targetDate v hr
      have := h v infos t hm hu
      omega

/-! ## Lemmas on strings -/

theorem includesChars_iff (sub s : List Char) :
    includesChars sub s = true ↔ ∃ a b, s = a ++ sub ++ b := by
  induction s with
  | nil =>
    unfold includesChars
    rw [List.isPrefixOf_iff_prefix]
    constructor
    · intro h
      have : sub = [] := List.prefix_nil.1 h
      exact ⟨[], [], by simp [this]⟩
    · rintro ⟨a, b, h⟩
      have h' := congrArg List.length h
      simp only [List.length_nil, List.length_append] at h'
      have : sub = [] := List.length_eq_zero.1 (by omega)
      rw [this]
    | cons c cs ih =>
    unfold includesChars
    rw [Bool.or_eq_true, List.isPrefixOf_iff_prefix, ih]
    constructor
    · rintro (⟨t, ht⟩ | ⟨a, b, hab⟩)
      · exact ⟨[], t, by simpa using ht.symm⟩
      · exact ⟨c :: a, b, by simp [hab]⟩
    · rintro ⟨a, b, hab⟩
      cases a with
      | nil => exact Or.inl ⟨b, by simpa using hab.symm⟩
      | cons c' a' =>
        simp only [List.cons_append, List.cons.injEq] at hab
        exact Or.inr ⟨a', b, hab.2⟩

theorem splitChars_head (sep : List Char) (hsep : sep ≠ []) (s : List Char)
    (h : includesChars sep s = true) :
    ∃ a b, s = a ++ sep ++ b ∧ (∀ a' b', s = a' ++ sep ++ b' → a.length ≤ a'.length) ∧
      (splitChars sep 0 s).headD [] = a := by
  induction s with
  | nil =>
    obtain ⟨a, b, hab⟩ := (includesChars_iff sep []).1 h
    have h' := congrArg List.length hab
    simp only [List.length_nil, List.length_append] at h'
    exact absurd (List.length_eq_zero.1 (by omega)) hsep
  | cons c cs ih =>
    by_cases hp : sep.isPrefixOf (c :: cs) = true
    · obtain ⟨t, ht⟩ := List.isPrefixOf_iff_prefix.1 hp
      refine ⟨[], t, by simpa using ht.symm, fun a' b' _ => by simp, ?_⟩
      simp [splitChars, hp]
    · have hcs : includesChars sep cs = true := by
        unfold includesChars at h
        rw [Bool.or_eq_true] at h
        exact h.resolve_left hp
      obtain ⟨a, b, hab, hmin, hhead⟩ := ih hcs
      refine ⟨c :: a, b, by simp [hab], ?_, ?_⟩
      · intro a' b' hab'
        cases a' with
        | nil =>
          exact absurd (List.isPrefixOf_iff_prefix.2 ⟨b', by simpa using hab'.symm⟩) hp
        | cons c' a'' =>
          simp only [List.cons_append, List.cons.injEq] at hab'
          have := hmin a'' b' hab'.2
          simp only [List.length_cons]
          omega
      · simp only [splitChars, hp]
        cases hs : splitChars sep 0 cs with
        | nil => rw [hs] at hhead; simp at hhead; simp [← hhead]
        | cons piece pieces => rw [hs] at hhead; simp at hhead; simp [hhead]

theorem includes_iff_occurs (line op : String) : includes line op = true ↔ Occurs op line := by
  unfold includes Occurs
  rw [includesChars_iff]
  constructor
  · rintro ⟨a, b, hab⟩
    exact ⟨⟨a⟩, ⟨b⟩, String.ext (by simpa using hab)⟩
  · rintro ⟨a, b, hab⟩
    exact ⟨a.data, b.data, by rw [hab]; simp⟩

theorem split_head_beforeFirst (line op : String) (hop : op ≠ "")
    (h : includes line op = true) : BeforeFirst op line ((split line op).headD "") := by
  have hsep : op.data ≠ [] := fun hd => hop (String.ext hd)
  obtain ⟨a, b, hab, hmin, hhead⟩ := splitChars_head op.data hsep line.data h
  have hh : (split line op).headD "" = ⟨a⟩ := by
    unfold split
    cases hs : splitChars op.data 0 line.data with
    | nil => rw [hs] at hhead; simp at hhead; subst hhead; rfl
    | cons piece pieces => rw [hs] at hhead; simp at hhead; simp [hhead]
  rw [hh]
  refine ⟨⟨⟨b⟩, String.ext (by simpa using hab)⟩, ?_⟩
  intro a' b' hab'
  have hlen := hmin a'.data b'.data (by rw [hab', String.data_append, String.data_append])
  exact hlen

theorem parsePackageName_eq_parseWith (line : String) :
    parsePackageName line = parseWith operators line := rfl

theorem parseWith_spec (ops : List String) (hops : ∀ op ∈ ops, op ≠ "") (line : String) :
    ((∀ op ∈ ops, ¬ Occurs op line) → parseWith ops line = trim line) ∧
    ∀ before op after, ops = before ++ op :: after → (∀ o ∈ before, ¬ Occurs o line) →
      Occurs op line → ∃ a, BeforeFirst op line a ∧ parseWith ops line = trim a := by
  induction ops with
  | nil =>
    refine ⟨fun _ => rfl, ?_⟩
    intro before op after h
    simp at h
  | cons o rest ih =>
    have ihr := ih (fun op hop => hops op (List.mem_cons_of_mem _ hop))
    constructor
    · intro hnone
      have ho : includes line o = false := by
        rw [← Bool.not_eq_true, includes_iff_occurs]
        exact hnone o (List.mem_cons_self _ _)
      simp only [parseWith, ho]
      exact ihr.1 (fun op hop => hnone op (List.mem_cons_of_mem _ hop))
    · intro before op after hsplit hbefore hocc
      cases before with
      | nil =>
        simp only [List.nil_append, List.cons.injEq] at hsplit
        obtain ⟨rfl, -⟩ := hsplit
        have ho : includes line o = true := (includes_iff_occurs line o).2 hocc
        refine ⟨(split line o).headD "", ?_, ?_⟩
        · exact split_head_beforeFirst line o (hops o (List.mem_cons_self _ _)) ho
        · simp [parseWith, ho]
      | cons o' before' =>
        simp only [List.cons_append, List.cons.injEq] at hsplit
        obtain ⟨rfl, hrest⟩ := hsplit
        have ho : includes line o = false := by
          rw [← Bool.not_eq_true, includes_iff_occurs]
          exact hbefore o (List.mem_cons_self _ _)
        obtain ⟨a, ha, hp⟩ := ihr.2 before' op after hrest
          (fun x hx => hbefore x (List.mem_cons_of_mem _ hx)) hocc
        exact ⟨a, ha, by simp only [parseWith, ho]; exact hp⟩

theorem trimChars_spec (s : List Char) :
    ∃ pre post, s = pre ++ trimChars s ++ post ∧
      (∀ c ∈ pre, isJsSpace c = true) ∧ (∀ c ∈ post, isJsSpace c = true) ∧
      (∀ c, (trimChars s).head? = some c → isJsSpace c = false) ∧
      (∀ c, (trimChars s).getLast? = some c → isJsSpace c = false) := by
  have hs : s.takeWhile isJsSpace ++ s.dropWhile isJsSpace = s :=
    List.takeWhile_append_dropWhile isJsSpace s
  have hm : (s.dropWhile isJsSpace) =
      trimChars s ++ ((s.dropWhile isJsSpace).reverse.takeWhile isJsSpace).reverse := by
    have h := congrArg List.reverse
      (List.takeWhile_append_dropWhile isJsSpace (s.dropWhile isJsSpace).reverse)
    rw [List.reverse_append, List.reverse_reverse] at h
    exact h.symm
  have hnot : ∀ (l : List Char) c, (l.dropWhile isJsSpace).head? = some c →
      isJsSpace c = false := by
    intro l c hc
    have h := List.head?_dropWhile_not isJsSpace l
    rw [hc] at h
    simpa using h
  refine ⟨s.takeWhile isJsSpace,
    ((s.dropWhile isJsSpace).reverse.takeWhile isJsSpace).reverse, ?_, ?_, ?_, ?_, ?_⟩
  · rw [List.append_assoc, ← hm, hs]
  · intro c hc
    exact List.mem_takeWhile_imp hc
  · intro c hc
    exact List.mem_takeWhile_imp (List.mem_reverse.1 hc)
  · intro c hc
    apply hnot s c
    rw [hm, List.head?_append, hc]
    rfl
  · intro c hc
    unfold trimChars at hc
    rw [List.getLast?_reverse] at hc
    exact hnot _ c hc

theorem startsWith_iff (s pre : String) :
    startsWith s pre = true ↔ ∃ r : String, s = pre ++ r := by
  unfold startsWith
  rw [List.isPrefixOf_iff_prefix]
  constructor
  · rintro ⟨t, ht⟩
    exact ⟨⟨t⟩, String.ext (by simpa using ht.symm)⟩
  · rintro ⟨r, hr⟩
    exact ⟨r.data, by rw [hr, String.data_append]⟩

/-! ## The line parser: claims C8 and C9 -/

/-- C8. The result of `parsePackageName` is the trimmed text before the first
occurrence of `op`, where `op` is the first of the operators, in the order
`==`, `>=`, `<=`, `~=`, `>`, `<`, `@`, that occurs in the line; when none
occurs it is the trimmed line. The four examples of the claim follow. -/
theorem parsePackageName_spec (line : String) :
    ((∀ op ∈ operators, ¬ Occurs op line) → parsePackageName line = trim line) ∧
    (∀ before op after, operators = before ++ op :: after →
      (∀ o ∈ before, ¬ Occurs o line) → Occurs op line →
      ∃ a, BeforeFirst op line a ∧ parsePackageName line = trim a) ∧
    parsePackageName "requests>=2.0" = "requests" ∧
    parsePackageName "pkg==1.2.3" = "pkg" ∧
    parsePackageName "flask" = "flask" ∧
    parsePackageName "pkg @ https://x" = "pkg" := by
  have hops : ∀ op ∈ operators, op ≠ "" := by decide
  have h := parseWith_spec operators hops line
  rw [← parsePackageName_eq_parseWith] at h
  exact ⟨h.1, h.2, by decide, by decide, by decide, by decide⟩

/-- An instance: a line with `>=` and `<` is cut at `>=`. -/
theorem parsePackageName_spec_witness :
    (∀ o ∈ ["=="], ¬ Occurs o "requests >= 2.0, < 3") ∧
    Occurs ">=" "requests >= 2.0, < 3" ∧
    ∃ a, BeforeFirst ">=" "requests >= 2.0, < 3" a ∧
      parsePackageName "requests >= 2.0, < 3" = trim a := by
  have hb : ∀ o ∈ ["=="], ¬ Occurs o "requests >= 2.0, < 3" := by
    intro o ho
    simp only [List.mem_singleton] at ho
    subst ho
    rw [← includes_iff_occurs]
    decide
  have ho : Occurs ">=" "requests >= 2.0, < 3" := ⟨"requests ", " 2.0, < 3", by decide⟩
  exact ⟨hb, ho,
    (parsePackageName_spec "requests >= 2.0, < 3").2.1 ["=="] ">=" ["<=", "~=", ">", "<", "@"]
      rfl hb ho⟩

/-- C9. The result of `isRequirementLine` is truthy exactly when the trimmed
line is not empty and does not start with `#`, `-` or `git+`. The five
examples of the claim follow. -/
theorem isRequirementLine_iff (line : String) :
    (isRequirementLine line = true ↔
      trim line ≠ "" ∧ (¬ ∃ r : String, trim line = "#" ++ r) ∧
        (¬ ∃ r : String, trim line = "-" ++ r) ∧ ¬ ∃ r : String, trim line = "git+" ++ r) ∧
    isRequirementLine "# comment" = false ∧
    isRequirementLine "-e ." = false ∧
    isRequirementLine "git+https://github.com/pallets/flask.git" = false ∧
    isRequirementLine "" = false ∧
    isRequirementLine "requests>=2.0" = true := by
  refine ⟨?_, by decide, by decide, by decide, by decide, by decide⟩
  unfold isRequirementLine
  simp only [Bool.and_eq_true, Bool.not_eq_true', decide_eq_true_eq]
  rw [← Bool.not_eq_true, ← Bool.not_eq_true, ← Bool.not_eq_true, startsWith_iff,
    startsWith_iff, startsWith_iff]
  tauto

/-! ## Lemmas on the batch loop -/

theorem processLines_length (registry : Registry) (targetDate : Int) (lines : List String)
    (w : World) : (processLines registry targetDate w lines).1.length = lines.length := by
  induction lines generalizing w with
  | nil => rfl
  | cons line rest ih => simp [processLines, ih]

theorem processLines_append (registry : Registry) (targetDate : Int)
    (pre post : List String) (w : World) :
    processLines registry targetDate w (pre ++ post) =
      ((processLines registry targetDate w pre).1 ++
        (processLines registry targetDate (processLines registry targetDate w pre).2 post).1,
       (processLines registry targetDate (processLines registry targetDate w pre).2 post).2) := by
  induction pre generalizing w with
  | nil => rfl
  | cons line rest ih => simp [processLines, ih]

theorem processLines_at (registry : Registry) (targetDate : Int)
    (pre post : List String) (line : String) (w : World) :
    (processLines registry targetDate w (pre ++ line :: post)).1 =
      (processLines registry targetDate w pre).1 ++
        (processLine registry targetDate (processLines registry targetDate w pre).2 line).1 ::
        (processLines registry targetDate
          (processLine registry targetDate (processLines registry targetDate w pre).2 line).2
          post).1 := by
  rw [processLines_append]
  rfl

theorem processLine_resolved (registry : Registry) (targetDate : Int) (w : World)
    (line v : String) (hreq : isRequirementLine line = true)
    (hname : parsePackageName line ≠ "")
    (hv : (getPackageVersionAsOfDate registry w (parsePackageName line) targetDate).1 = some v)
    (hne : v ≠ "") :
    processLine registry targetDate w line =
      (parsePackageName line ++ "==" ++ v,
        (getPackageVersionAsOfDate registry w (parsePackageName line) targetDate).2) := by
  unfold processLine processSinglePackage
  rcases hg : getPackageVersionAsOfDate registry w (parsePackageName line) targetDate with
    ⟨r, w1⟩
  rw [hg] at hv
  simp only at hv
  subst hv
  simp [hreq, hname, hne, hg]

theorem processLine_unresolved (registry : Registry) (targetDate : Int) (w : World)
    (line : String)
    (hv : (getPackageVersionAsOfDate registry w (parsePackageName line) targetDate).1 = none) :
    (processLine registry targetDate w line).1 = line := by
  unfold processLine processSinglePackage
  rcases hg : getPackageVersionAsOfDate registry w (parsePackageName line) targetDate with
    ⟨r, w1⟩
  rw [hg] at hv
  simp only at hv
  subst hv
  by_cases hreq : isRequirementLine line = true
  · by_cases hname : parsePackageName line = ""
    · simp [hreq, hname]
    · simp [hreq, hname, hg]
  · simp [hreq]

/-! ## Lemmas on the cache -/

theorem getPackageVersionAsOfDate_hit (registry : Registry) (w : World)
    (packageName : String) (targetDate : Int) (v : String)
    (h : w.cache.truthy (cacheKey packageName targetDate) = some v) :
    getPackageVersionAsOfDate registry w packageName targetDate = (some v, w) := by
  unfold getPackageVersionAsOfDate
  rw [h]

theorem truthy_set_self (c : Cache) (key v : String) (hne : v ≠ "") :
    (c.set key (some v)).truthy key = some v := by
  simp [Cache.truthy, Cache.set, hne]

theorem truthy_set_other (c : Cache) (key k : String) (value : Option String)
    (hk : k ≠ key) : (c.set key value).truthy k = c.truthy k := by
  simp [Cache.truthy, Cache.set, hk]

theorem truthy_after_some (registry : Registry) (w : World) (packageName : String)
    (targetDate : Int) (v : String)
    (h : (getPackageVersionAsOfDate registry w packageName targetDate).1 = some v)
    (hne : v ≠ "") :
    (getPackageVersionAsOfDate registry w packageName targetDate).2.cache.truthy
      (cacheKey packageName targetDate) = some v := by
  unfold getPackageVersionAsOfDate at h ⊢
  cases ht : w.cache.truthy (cacheKey packageName targetDate) with
  | some cached =>
    rw [ht] at h
    simp only at h ⊢
    rw [ht, h]
  | none =>
    rw [ht] at h
    simp only at h ⊢
    cases hr : registry w.fetched.length packageName with
    | rejected => rw [hr] at h; cases h
    | reply status body =>
      rw [hr] at h
      simp only at h ⊢
      by_cases h404 : status = 404
      · simp [h404] at h
      · by_cases hok : Response.okStatus status = true
        · cases body with
          | none => simp [h404, hok] at h
          | some releases =>
            simp only [h404, hok, if_false, Bool.not_true, Bool.false_eq_true] at h ⊢
            rw [h]
            exact truthy_set_self _ _ v hne
        · simp [h404, hok] at h

theorem truthy_preserved (registry : Registry) (w : World) (packageName : String)
    (targetDate : Int) (key v : String) (h : w.cache.truthy key = some v) :
    (getPackageVersionAsOfDate registry w packageName targetDate).2.cache.truthy key
      = some v := by
  unfold getPackageVersionAsOfDate
  cases ht : w.cache.truthy (cacheKey packageName targetDate) with
  | some cached => exact h
  | none =>
    simp only
    have hk : key ≠ cacheKey packageName targetDate := by
      intro hk
      rw [hk, ht] at h
      cases h
    cases hr : registry w.fetched.length packageName with
    | rejected => exact h
    | reply status body =>
      simp only
      by_cases h404 : status = 404
      · simpa [h404] using h
      · by_cases hok : Response.okStatus status = true
        · cases body with
          | none => simpa [h404, hok] using h
          | some releases =>
            simp only [h404, hok, if_false, Bool.not_true, Bool.false_eq_true]
            rw [truthy_set_other _ _ _ _ hk]
            exact h
        · simpa [h404, hok] using h

theorem truthy_runCalls (registry : Registry) (calls : List (String × Int)) (w : World)
    (key v : String) (h : w.cache.truthy key = some v) :
    (runCalls registry w calls).cache.truthy key = some v := by
  induction calls generalizing w with
  | nil => exact h
  | cons call rest ih =>
    exact ih _ (truthy_preserved registry w call.1 call.2 key v h)

/-! ## The cache: claim C10 -/

/-- C10, as the claim states it, fails: after a first call that completed
with `null`, the second call with the same package and date fetches again,
whether the package was not found, the fetch failed, the status was not a
success or no release qualified; in the last case `null` was stored and is
stored again. -/
theorem null_result_fetched_again :
    ((getPackageVersionAsOfDate notFoundRegistry World.init "numpy" 1420070400000).1 = none ∧
      (getPackageVersionAsOfDate notFoundRegistry
        (getPackageVersionAsOfDate notFoundRegistry World.init "numpy" 1420070400000).2
        "numpy" 1420070400000).2.fetched = ["numpy", "numpy"]) ∧
    ((getPackageVersionAsOfDate unreachableRegistry World.init "numpy" 1420070400000).1 = none ∧
      (getPackageVersionAsOfDate unreachableRegistry
        (getPackageVersionAsOfDate unreachableRegistry World.init "numpy" 1420070400000).2
        "numpy" 1420070400000).2.fetched = ["numpy", "numpy"]) ∧
    ((getPackageVersionAsOfDate brokenRegistry World.init "numpy" 1420070400000).1 = none ∧
      (getPackageVersionAsOfDate brokenRegistry
        (getPackageVersionAsOfDate brokenRegistry World.init "numpy" 1420070400000).2
        "numpy" 1420070400000).2.fetched = ["numpy", "numpy"]) ∧
    ((getPackageVersionAsOfDate sampleRegistry World.init "requests" 1420070400000).1 = none ∧
      (getPackageVersionAsOfDate sampleRegistry World.init "requests" 1420070400000).2.cache
        (cacheKey "requests" 1420070400000) = some none ∧
      (getPackageVersionAsOfDate sampleRegistry
        (getPackageVersionAsOfDate sampleRegistry World.init "requests" 1420070400000).2
        "requests" 1420070400000).2.fetched = ["requests", "requests"]) := by
  decide

/-- C10, amended. Once a call `getPackageVersionAsOfDate(p, D)` has completed
with a non-empty version `v`, every later call with the same `(p, D)`, after
any calls in between and whatever the registry answers, returns `v` and
leaves the state as it is: no registry fetch is issued and the cache is not
written. -/
theorem cached_version_served (registry : Registry) (w : World) (p : String) (targetDate : Int)
    (v : String) (calls : List (String × Int))
    (h : (getPackageVersionAsOfDate registry w p targetDate).1 = some v)
    (hne : v ≠ "") :
    getPackageVersionAsOfDate registry
        (runCalls registry (getPackageVersionAsOfDate registry w p targetDate).2 calls)
        p targetDate =
      (some v, runCalls registry (getPackageVersionAsOfDate registry w p targetDate).2 calls) :=
  getPackageVersionAsOfDate_hit registry _ p targetDate v
    (truthy_runCalls registry calls _ _ v (truthy_after_some registry w p targetDate v h hne))

/-- An instance: the second call for `flask` is served from the cache after
two other calls; three fetches were issued in all. -/
theorem cached_version_served_witness :
    (getPackageVersionAsOfDate sampleRegistry World.init "flask" 1590969600000).1
      = some "1.1.2" ∧
    (getPackageVersionAsOfDate sampleRegistry
        (runCalls sampleRegistry
          (getPackageVersionAsOfDate sampleRegistry World.init "flask" 1590969600000).2
          [("requests", 1590969600000), ("flask", 1620691200000)])
        "flask" 1590969600000).1 = some "1.1.2" ∧
    (getPackageVersionAsOfDate sampleRegistry
        (runCalls sampleRegistry
          (getPackageVersionAsOfDate sampleRegistry World.init "flask" 1590969600000).2
          [("requests", 1590969600000), ("flask", 1620691200000)])
        "flask" 1590969600000).2.fetched = ["flask", "requests", "flask"] ∧
    getPackageVersionAsOfDate sampleRegistry
        (runCalls sampleRegistry
          (getPackageVersionAsOfDate sampleRegistry World.init "flask" 1590969600000).2
          [("requests", 1590969600000), ("flask", 1620691200000)])
        "flask" 1590969600000 =
      (some "1.1.2", runCalls sampleRegistry
          (getPackageVersionAsOfDate sampleRegistry World.init "flask" 1590969600000).2
          [("requests", 1590969600000), ("flask", 1620691200000)]) :=
  ⟨by decide, by decide, by decide,
    cached_version_served sampleRegistry World.init "flask" 1590969600000 "1.1.2"
      [("requests", 1590969600000), ("flask", 1620691200000)] (by decide) (by decide)⟩

/-! ## The inclusive boundary: claim C11 -/

/-- C11. When some release has the timestamp `targetDate` itself, the loop
returns a version, and that version has a release with the timestamp
`targetDate`; a single version with a single release dated `targetDate`
resolves to that version. -/
theorem resolve_boundary_inclusive (releases : Releases) (targetDate : Int) :
    ((∃ v0 infos0, (v0, infos0) ∈ releases ∧ UploadTime.parsed targetDate ∈ infos0) →
      ∃ v infos, resolve releases targetDate = some v ∧ (v, infos) ∈ releases ∧
        UploadTime.parsed targetDate ∈ infos) ∧
    ∀ v, resolve [(v, [UploadTime.parsed targetDate])] targetDate = some v := by
  constructor
  · rintro ⟨v0, infos0, hm0, hu0⟩
    have htr := tracks_resolve targetDate releases
    unfold resolve
    generalize resolveFrom targetDate Latest.init releases = st at htr
    cases htr with
    | nothing hn =>
      have := hn v0 targetDate (mem_artifacts.2 ⟨infos0, hm0, hu0⟩)
      omega
    | found v t hq hfind hbest =>
      have h2 := hbest v0 targetDate (mem_artifacts.2 ⟨infos0, hm0, hu0⟩) (le_refl _)
      have htm : t = targetDate := by omega
      subst htm
      obtain ⟨infos, hm, hu⟩ := mem_artifacts.1 (List.mem_of_find?_eq_some hfind)
      exact ⟨v, infos, rfl, hm, hu⟩
  · intro v
    simp [resolve, resolveFrom, versionStep, releaseStep, Latest.init]

/-- An instance: a release uploaded at the target instant is selected over an
earlier one, and a later one is not. -/
theorem resolve_boundary_inclusive_witness :
    (∃ v0 infos0, (v0, infos0) ∈ ([("1.0", [.parsed 3]), ("1.1", [.parsed 8]),
        ("1.2", [.parsed 9])] : Releases) ∧ UploadTime.parsed 8 ∈ infos0) ∧
    resolve [("1.0", [.parsed 3]), ("1.1", [.parsed 8]), ("1.2", [.parsed 9])] 8 = some "1.1" ∧
    ∃ v infos, resolve [("1.0", [.parsed 3]), ("1.1", [.parsed 8]), ("1.2", [.parsed 9])] 8
        = some v ∧
      (v, infos) ∈ ([("1.0", [.parsed 3]), ("1.1", [.parsed 8]), ("1.2", [.parsed 9])] : Releases) ∧
      UploadTime.parsed 8 ∈ infos :=
  ⟨⟨"1.1", [.parsed 8], by decide, by decide⟩, by decide,
    (resolve_boundary_inclusive [("1.0", [.parsed 3]), ("1.1", [.parsed 8]),
      ("1.2", [.parsed 9])] 8).1 ⟨"1.1", [.parsed 8], by decide, by decide⟩⟩

/-! ## A target date that does not parse: claim C14 -/

/-- C14. When the target-date string does not parse, `processRequirements`
returns the empty string and leaves the state as it is: no fetch is issued and
the cache is unchanged. When it parses, the result is the join of
`updatedRequirements`, which has one element for each line of the input,
whatever the registry answers. -/
theorem processRequirements_date (dateOf : String → Option Int) (registry : Registry)
    (w : World) (text dateStr : String) :
    (parseDate dateOf dateStr = none →
      processRequirements dateOf registry w text dateStr = ("", w)) ∧
    ∀ targetDate, parseDate dateOf dateStr = some targetDate →
      (processRequirements dateOf registry w text dateStr).1 =
        join "\n" (processLines registry targetDate w (split text "\n")).1 ∧
      (processLines registry targetDate w (split text "\n")).1.length =
        (split text "\n").length := by
  constructor
  · intro h
    unfold processRequirements
    rw [h]
  · intro targetDate h
    refine ⟨?_, processLines_length _ _ _ _⟩
    unfold processRequirements
    rw [h]

/-- An instance: a date string the parser rejects gives the empty output and
no fetch; with a date that parses and a registry that cannot be reached the
document comes back whole. -/
theorem processRequirements_date_witness :
    parseDate sampleDateOf "not-a-date" = none ∧
    (processRequirements sampleDateOf sampleRegistry World.init
      "flask==1.0\nrequests>=2.0" "not-a-date").1 = "" ∧
    (processRequirements sampleDateOf sampleRegistry World.init
      "flask==1.0\nrequests>=2.0" "not-a-date").2.fetched = [] ∧
    processRequirements sampleDateOf sampleRegistry World.init
      "flask==1.0\nrequests>=2.0" "not-a-date" = ("", World.init) ∧
    (processRequirements sampleDateOf unreachableRegistry World.init
      "flask==1.0\nrequests>=2.0" "2020-06-01").1 = "flask==1.0\nrequests>=2.0" ∧
    (processLines unreachableRegistry 1590969600000 World.init
      (split "flask==1.0\nrequests>=2.0" "\n")).1.length =
      (split "flask==1.0\nrequests>=2.0" "\n").length :=
  ⟨by decide, by decide, by decide,
    (processRequirements_date sampleDateOf sampleRegistry World.init
      "flask==1.0\nrequests>=2.0" "not-a-date").1 (by decide),
    by decide,
    ((processRequirements_date sampleDateOf unreachableRegistry World.init
      "flask==1.0\nrequests>=2.0" "2020-06-01").2 1590969600000 (by decide)).2⟩

/-! ## Other version-control prefixes: claim C15 -/

/-- C15, as the claim states it, fails: a line that starts with `hg+`, `svn+`
or `bzr+` is accepted as a requirement line, while a line that starts with
`git+` is not. -/
theorem isRequirementLine_accepts_other_vcs :
    isRequirementLine "hg+https://example.org/repo" = true ∧
    isRequirementLine "svn+https://example.org/repo" = true ∧
    isRequirementLine "bzr+https://example.org/repo" = true ∧
    isRequirementLine "git+https://example.org/repo" = false := by
  decide

/-- C15, amended. Of the version-control prefixes only `git+` makes a line
pass-through: a line whose trimmed text starts with `git+` is rejected by
`isRequirementLine`, and a line whose trimmed text starts with `hg+`, `svn+`
or `bzr+` is accepted as a package requirement. -/
theorem isRequirementLine_vcs (line : String) :
    ((∃ r : String, trim line = "git+" ++ r) → isRequirementLine line = false) ∧
    (((∃ r : String, trim line = "hg+" ++ r) ∨ (∃ r : String, trim line = "svn+" ++ r) ∨
        ∃ r : String, trim line = "bzr+" ++ r) → isRequirementLine line = true) := by
  constructor
  · rintro ⟨r, hr⟩
    have h : startsWith (trim line) "git+" = true := (startsWith_iff _ _).2 ⟨r, hr⟩
    unfold isRequirementLine
    simp [h]
  · intro h
    unfold isRequirementLine startsWith
    rcases h with ⟨r, hr⟩ | ⟨r, hr⟩ | ⟨r, hr⟩ <;>
    · have hd : (trim line).data = _ := congrArg String.data hr
      have hne : trim line ≠ "" := by
        intro he
        rw [he] at hd
        simp at hd
      simp only [String.data_append] at hd
      simp [hne, hd, List.isPrefixOf]

/-- An instance: an indented Mercurial URL is accepted and an indented Git URL
is not. -/
theorem isRequirementLine_vcs_witness :
    (∃ r : String, trim "  git+https://example.org/repo" = "git+" ++ r) ∧
    isRequirementLine "  git+https://example.org/repo" = false ∧
    ((∃ r : String, trim "  hg+https://example.org/repo" = "hg+" ++ r) ∨
      (∃ r : String, trim "  hg+https://example.org/repo" = "svn+" ++ r) ∨
      ∃ r : String, trim "  hg+https://example.org/repo" = "bzr+" ++ r) ∧
    isRequirementLine "  hg+https://example.org/repo" = true :=
  ⟨⟨"https://example.org/repo", by decide⟩,
    (isRequirementLine_vcs "  git+https://example.org/repo").1
      ⟨"https://example.org/repo", by decide⟩,
    Or.inl ⟨"https://example.org/repo", by decide⟩,
    (isRequirementLine_vcs "  hg+https://example.org/repo").2
      (Or.inl ⟨"https://example.org/repo", by decide⟩)⟩

/-! ## Lemmas on the cache key -/

theorem key_chars_inj (p1 p2 d1 d2 : List Char) (h1 : d1.length = 10) (h2 : d2.length = 10)
    (h : p1 ++ '_' :: d1 = p2 ++ '_' :: d2) : p1 = p2 ∧ d1 = d2 := by
  have hl : ('_' :: d1).length = ('_' :: d2).length := by simp [h1, h2]
  obtain ⟨hp, hd⟩ := List.append_inj' h hl
  exact ⟨hp, by simpa using hd⟩

theorem key_string_inj (p1 p2 d1 d2 : String) (h1 : d1.length = 10) (h2 : d2.length = 10)
    (h : p1 ++ "_" ++ d1 = p2 ++ "_" ++ d2) : p1 = p2 ∧ d1 = d2 := by
  have hd := congrArg String.data h
  simp only [String.data_append, List.append_assoc] at hd
  obtain ⟨hp, hdd⟩ := key_chars_inj p1.data p2.data d1.data d2.data h1 h2 hd
  exact ⟨String.ext hp, String.ext hdd⟩

theorem pad2_length (n : Nat) : (pad2 n).length = 2 := rfl

theorem pad4_length (n : Nat) : (pad4 n).length = 4 := rfl

theorem pad6_length (n : Nat) : (pad6 n).length = 6 := rfl

theorem isoDay_length (targetDate : Int) : (isoDay targetDate).length = 10 := by
  unfold isoDay
  show (List.take 10 _).length = 10
  rw [List.length_take]
  split <;> simp [pad2_length, pad4_length, pad6_length]

theorem cacheKey_inj (p1 p2 : String) (d1 d2 : Int) (h : cacheKey p1 d1 = cacheKey p2 d2) :
    p1 = p2 ∧ isoDay d1 = isoDay d2 :=
  key_string_inj p1 p2 (isoDay d1) (isoDay d2) (isoDay_length d1) (isoDay_length d2) h

/-! ## Lemmas on lines: `split` after `join` -/

theorem getPackageVersionAsOfDate_miss (registry : Registry) (w : World)
    (packageName : String) (targetDate : Int)
    (h : w.cache.truthy (cacheKey packageName targetDate) = none) :
    getPackageVersionAsOfDate registry w packageName targetDate =
      match usableReleases (registry w.fetched.length packageName) with
      | none => (none, ⟨w.cache, w.fetched ++ [packageName]⟩)
      | some releases =>
        (resolve releases targetDate,
          ⟨w.cache.set (cacheKey packageName targetDate) (resolve releases targetDate),
            w.fetched ++ [packageName]⟩) := by
  unfold getPackageVersionAsOfDate
  rw [h]
  simp only
  cases hr : registry w.fetched.length packageName with
  | rejected => rfl
  | reply status body =>
    simp only [usableReleases]
    by_cases h404 : status = 404
    · simp [h404]
    · by_cases hok : Response.okStatus status = true
      · cases body <;> simp [h404, hok]
      · simp [h404, hok]

theorem truthy_set (c : Cache) (key k : String) (value : Option String) :
    (c.set key value).truthy k =
      if k = key then (match value with
        | some v => if v = "" then none else some v
        | none => none)
      else c.truthy k := by
  by_cases hk : k = key
  · cases value <;> simp [Cache.truthy, Cache.set, hk]
  · simp [Cache.truthy, Cache.set, hk]

theorem splitChars_nl_ne_nil (s : List Char) : splitChars ['\n'] 0 s ≠ [] := by
  cases s with
  | nil => simp [splitChars]
  | cons c cs =>
    unfold splitChars
    split
    · simp
    · split <;> simp

theorem splitChars_nl_pieces (s : List Char) :
    ∀ piece ∈ splitChars ['\n'] 0 s, '\n' ∉ piece := by
  induction s with
  | nil => simp [splitChars]
  | cons c cs ih =>
    intro piece hp
    unfold splitChars at hp
    by_cases hc : c = '\n'
    · subst hc
      simp [List.isPrefixOf] at hp
      rcases hp with rfl | hp
      · simp
      · exact ih piece hp
    · have hpre : List.isPrefixOf ['\n'] (c :: cs) = false := by
        simp [List.isPrefixOf, Ne.symm hc]
      rw [hpre] at hp
      simp only [Bool.false_eq_true, if_false] at hp
      cases hs : splitChars ['\n'] 0 cs with
      | nil => exact absurd hs (splitChars_nl_ne_nil cs)
      | cons q qs =>
        rw [hs] at hp ih
        simp only [List.mem_cons] at hp
        rcases hp with rfl | hp
        · intro hm
          simp only [List.mem_cons] at hm
          rcases hm with hm | hm
          · exact hc hm.symm
          · exact ih q (List.mem_cons_self _ _) hm
        · exact ih piece (List.mem_cons_of_mem _ hp)

theorem splitChars_nl_cons_nl (cs : List Char) :
    splitChars ['\n'] 0 ('\n' :: cs) = [] :: splitChars ['\n'] 0 cs := by
  rw [splitChars]
  simp [List.isPrefixOf]

theorem splitChars_nl_cons_ne (c : Char) (cs : List Char) (hc : c ≠ '\n') :
    splitChars ['\n'] 0 (c :: cs) =
      match splitChars ['\n'] 0 cs with
      | [] => [[c]]
      | piece :: pieces => (c :: piece) :: pieces := by
  rw [splitChars]
  simp [List.isPrefixOf, Ne.symm hc]

theorem splitChars_nl_append (a rest : List Char) (ha : '\n' ∉ a) :
    splitChars ['\n'] 0 (a ++ '\n' :: rest) = a :: splitChars ['\n'] 0 rest := by
  induction a with
  | nil => exact splitChars_nl_cons_nl rest
  | cons c cs ih =>
    have hc : c ≠ '\n' := fun h => ha (by simp [h])
    have hcs : '\n' ∉ cs := fun h => ha (List.mem_cons_of_mem _ h)
    rw [List.cons_append, splitChars_nl_cons_ne c _ hc, ih hcs]

theorem splitChars_nl_single (a : List Char) (ha : '\n' ∉ a) :
    splitChars ['\n'] 0 a = [a] := by
  induction a with
  | nil => simp [splitChars]
  | cons c cs ih =>
    have hc : c ≠ '\n' := fun h => ha (by simp [h])
    have hcs : '\n' ∉ cs := fun h => ha (List.mem_cons_of_mem _ h)
    rw [splitChars_nl_cons_ne c _ hc, ih hcs]

theorem split_join (out : List String) (hne : out ≠ [])
    (hfree : ∀ x ∈ out, NewlineFree x) : split (join "\n" out) "\n" = out := by
  induction out with
  | nil => exact absurd rfl hne
  | cons a rest ih =>
    have ha : '\n' ∉ a.data := hfree a (List.mem_cons_self _ _)
    cases rest with
    | nil =>
      show (splitChars ['\n'] 0 a.data).map String.mk = [a]
      rw [splitChars_nl_single a.data ha]
      rfl
    | cons b rest' =>
      have ih' := ih (by simp) (fun x hx => hfree x (List.mem_cons_of_mem _ hx))
      have hd : (join "\n" (a :: b :: rest')).data =
          a.data ++ '\n' :: (join "\n" (b :: rest')).data := by
        simp [join]
      unfold split at ih' ⊢
      rw [hd]
      show (splitChars ['\n'] 0 _).map String.mk = _
      rw [splitChars_nl_append a.data _ ha, List.map_cons]
      have ih2 : (splitChars ['\n'] 0 (join "\n" (b :: rest')).data).map String.mk
          = b :: rest' := ih'
      rw [ih2]

theorem split_newlineFree (text : String) : ∀ line ∈ split text "\n", NewlineFree line := by
  intro line hl
  unfold split at hl
  rw [List.mem_map] at hl
  obtain ⟨piece, hp, rfl⟩ := hl
  exact splitChars_nl_pieces text.data piece hp

theorem trim_subset (s : String) : ∀ c ∈ (trim s).data, c ∈ s.data := by
  intro c hc
  obtain ⟨pre, post, hs, -⟩ := trimChars_spec s.data
  rw [hs]
  exact List.mem_append_left _ (List.mem_append_right _ hc)

theorem parseWith_subset (ops : List String) (hops : ∀ op ∈ ops, op ≠ "") (line : String) :
    ∀ c ∈ (parseWith ops line).data, c ∈ line.data := by
  induction ops with
  | nil => exact trim_subset line
  | cons o rest ih =>
    intro c hc
    unfold parseWith at hc
    by_cases ho : includes line o = true
    · rw [if_pos ho] at hc
      obtain ⟨⟨b, hb⟩, -⟩ := split_head_beforeFirst line o (hops o (List.mem_cons_self _ _)) ho
      have hmem := trim_subset _ c hc
      have hd := congrArg String.data hb
      simp only [String.data_append] at hd
      rw [hd]
      exact List.mem_append_left _ (List.mem_append_left _ hmem)
    · rw [if_neg ho] at hc
      exact ih (fun op hop => hops op (List.mem_cons_of_mem _ hop)) c hc

theorem parsePackageName_newlineFree (line : String) (h : NewlineFree line) :
    NewlineFree (parsePackageName line) := by
  intro hc
  exact h (parseWith_subset operators (by decide) line _ hc)

theorem cacheNewlineFree_init : CacheNewlineFree World.init := by
  intro key v h
  simp [World.init, Cache.truthy, Cache.empty] at h

theorem getPackageVersionAsOfDate_newlineFree (registry : Registry) (w : World)
    (packageName : String) (targetDate : Int)
    (hreg : VersionsNewlineFree registry) (hw : CacheNewlineFree w) :
    (∀ v, (getPackageVersionAsOfDate registry w packageName targetDate).1 = some v →
      NewlineFree v) ∧
    CacheNewlineFree (getPackageVersionAsOfDate registry w packageName targetDate).2 := by
  cases ht : w.cache.truthy (cacheKey packageName targetDate) with
  | some cached =>
    rw [getPackageVersionAsOfDate_hit registry w packageName targetDate cached ht]
    refine ⟨?_, hw⟩
    intro v hv
    simp only [Option.some.injEq] at hv
    subst hv
    exact hw _ _ ht
  | none =>
    rw [getPackageVersionAsOfDate_miss registry w packageName targetDate ht]
    cases hu : usableReleases (registry w.fetched.length packageName) with
    | none =>
      refine ⟨?_, ?_⟩
      · intro v hv
        cases hv
      · intro key v hk
        exact hw key v hk
    | some releases =>
      have hres : ∀ v, resolve releases targetDate = some v → NewlineFree v := by
        intro v hv
        obtain ⟨infos, t, hm, -⟩ := resolve_some_spec releases targetDate v hv
        exact hreg _ _ releases hu (v, infos) hm
      refine ⟨hres, ?_⟩
      intro key v hk
      simp only at hk
      rw [truthy_set] at hk
      by_cases hkey : key = cacheKey packageName targetDate
      · rw [if_pos hkey] at hk
        cases hr : resolve releases targetDate with
        | none => rw [hr] at hk; cases hk
        | some v' =>
          rw [hr] at hk
          simp only at hk
          by_cases hv' : v' = ""
          · rw [if_pos hv'] at hk; cases hk
          · rw [if_neg hv'] at hk
            cases hk
            exact hres v hr
      · rw [if_neg hkey] at hk
        exact hw key v hk

theorem runCalls_newlineFree (registry : Registry) (hreg : VersionsNewlineFree registry)
    (calls : List (String × Int)) (w : World) (hw : CacheNewlineFree w) :
    CacheNewlineFree (runCalls registry w calls) := by
  induction calls generalizing w with
  | nil => exact hw
  | cons call rest ih =>
    exact ih _ (getPackageVersionAsOfDate_newlineFree registry w call.1 call.2 hreg hw).2

theorem append_newlineFree (a b : String) (ha : NewlineFree a) (hb : NewlineFree b) :
    NewlineFree (a ++ b) := by
  unfold NewlineFree at *
  rw [String.data_append, List.mem_append]
  tauto

theorem processLine_newlineFree (registry : Registry) (targetDate : Int) (w : World)
    (line : String) (hreg : VersionsNewlineFree registry) (hw : CacheNewlineFree w)
    (hl : NewlineFree line) :
    NewlineFree (processLine registry targetDate w line).1 ∧
    CacheNewlineFree (processLine registry targetDate w line).2 := by
  unfold processLine
  by_cases hreq : isRequirementLine line = true
  · by_cases hname : parsePackageName line = ""
    · simp only [hreq, hname, Bool.not_true, Bool.false_eq_true, if_false, if_true]
      exact ⟨hl, hw⟩
    · simp only [hreq, hname, Bool.not_true, Bool.false_eq_true, if_false]
      have hg := getPackageVersionAsOfDate_newlineFree registry w (parsePackageName line)
        targetDate hreg hw
      unfold processSinglePackage
      rcases hr : getPackageVersionAsOfDate registry w (parsePackageName line) targetDate with
        ⟨r, w1⟩
      rw [hr] at hg
      cases r with
      | none => exact ⟨hl, hg.2⟩
      | some v =>
        by_cases hv : v = ""
        · simp only [hv, if_true]
          exact ⟨hl, hg.2⟩
        · simp only [hv, if_false]
          refine ⟨?_, hg.2⟩
          exact append_newlineFree _ _
            (append_newlineFree _ _ (parsePackageName_newlineFree line hl)
              (by unfold NewlineFree; decide))
            (hg.1 v rfl)
  · simp only [hreq, Bool.not_false, if_true]
    exact ⟨hl, hw⟩

theorem processLines_newlineFree (registry : Registry) (targetDate : Int)
    (hreg : VersionsNewlineFree registry) (lines : List String) (w : World)
    (hw : CacheNewlineFree w) (hl : ∀ line ∈ lines, NewlineFree line) :
    (∀ x ∈ (processLines registry targetDate w lines).1, NewlineFree x) ∧
    CacheNewlineFree (processLines registry targetDate w lines).2 := by
  induction lines generalizing w with
  | nil =>
    refine ⟨?_, hw⟩
    intro x hx
    cases hx
  | cons line rest ih =>
    have h1 := processLine_newlineFree registry targetDate w line hreg hw
      (hl line (List.mem_cons_self _ _))
    have h2 := ih (processLine registry targetDate w line).2 h1.2
      (fun x hx => hl x (List.mem_cons_of_mem _ hx))
    refine ⟨?_, h2.2⟩
    intro x hx
    simp only [processLines, List.mem_cons] at hx
    rcases hx with rfl | hx
    · exact h1.1
    · exact h2.1 x hx

theorem processLine_passthrough (registry : Registry) (targetDate : Int) (w : World)
    (line : String) (h : isRequirementLine line = false) :
    processLine registry targetDate w line = (line, w) := by
  simp [processLine, h]

theorem split_ne_nil (text : String) : split text "\n" ≠ [] := by
  unfold split
  intro h
  exact splitChars_nl_ne_nil text.data (List.map_eq_nil_iff.1 h)

theorem sampleRegistry_newlineFree : VersionsNewlineFree sampleRegistry := by
  intro n p releases h entry he
  unfold sampleRegistry at h
  by_cases h1 : p = "flask"
  · simp [h1, usableReleases, Response.okStatus] at h
    subst h
    simp at he
    rcases he with rfl | rfl <;> (unfold NewlineFree; decide)
  · by_cases h2 : p = "requests"
    · simp [h2, usableReleases, Response.okStatus] at h
      subst h
      simp at he
      subst he
      unfold NewlineFree
      decide
    · simp [h1, h2, usableReleases] at h

/-! ## Lines are neither added, dropped nor moved: claim C12 -/

/-- C12. For a target date that parses and a registry whose version
identifiers have no line feed, in every state the process can reach, the
output of `processRequirements` split on `\n` is the array
`updatedRequirements`: it has as many lines as the input split on `\n`, and a
line that `isRequirementLine` rejects stands unchanged at its index. -/
theorem processRequirements_line_frame (dateOf : String → Option Int) (registry : Registry)
    (calls : List (String × Int)) (text dateStr : String) (targetDate : Int)
    (hreg : VersionsNewlineFree registry)
    (hdate : parseDate dateOf dateStr = some targetDate) :
    split (processRequirements dateOf registry (runCalls registry World.init calls)
        text dateStr).1 "\n" =
      (processLines registry targetDate (runCalls registry World.init calls)
        (split text "\n")).1 ∧
    (split (processRequirements dateOf registry (runCalls registry World.init calls)
        text dateStr).1 "\n").length = (split text "\n").length ∧
    ∀ pre line post, split text "\n" = pre ++ line :: post →
      isRequirementLine line = false →
      (split (processRequirements dateOf registry (runCalls registry World.init calls)
        text dateStr).1 "\n")[pre.length]? = some line := by
  have hw : CacheNewlineFree (runCalls registry World.init calls) :=
    runCalls_newlineFree registry hreg calls World.init cacheNewlineFree_init
  have hfree := (processLines_newlineFree registry targetDate hreg (split text "\n")
    (runCalls registry World.init calls) hw (split_newlineFree text)).1
  have hlen := processLines_length registry targetDate (split text "\n")
    (runCalls registry World.init calls)
  have hne : (processLines registry targetDate (runCalls registry World.init calls)
      (split text "\n")).1 ≠ [] := by
    intro h
    rw [h] at hlen
    exact split_ne_nil text (List.length_eq_zero.1 hlen.symm)
  have hout : (processRequirements dateOf registry (runCalls registry World.init calls)
      text dateStr).1 = join "\n" (processLines registry targetDate
        (runCalls registry World.init calls) (split text "\n")).1 := by
    unfold processRequirements
    rw [hdate]
  have hsplit := split_join _ hne hfree
  rw [hout, hsplit]
  refine ⟨rfl, hlen, ?_⟩
  intro pre line post hlines hnot
  rw [hlines, processLines_at, processLine_passthrough registry targetDate _ line hnot]
  have hpre := processLines_length registry targetDate pre (runCalls registry World.init calls)
  rw [List.getElem?_append_right (by omega)]
  simp [hpre]

/-- An instance: in the end-to-end example the comment and the final empty
line keep their places among four output lines. -/
theorem processRequirements_line_frame_witness :
    split (processRequirements sampleDateOf sampleRegistry World.init
      "flask==1.0\nrequests>=2.0\n# note\n" "2020-06-01").1 "\n" =
      ["flask==1.1.2", "requests>=2.0", "# note", ""] ∧
    (split (processRequirements sampleDateOf sampleRegistry
        (runCalls sampleRegistry World.init [])
        "flask==1.0\nrequests>=2.0\n# note\n" "2020-06-01").1 "\n").length =
      (split "flask==1.0\nrequests>=2.0\n# note\n" "\n").length ∧
    (split (processRequirements sampleDateOf sampleRegistry
        (runCalls sampleRegistry World.init [])
        "flask==1.0\nrequests>=2.0\n# note\n" "2020-06-01").1
      "\n")[["flask==1.0", "requests>=2.0"].length]? = some "# note" :=
  ⟨by decide,
    (processRequirements_line_frame sampleDateOf sampleRegistry []
      "flask==1.0\nrequests>=2.0\n# note\n" "2020-06-01" 1590969600000
      sampleRegistry_newlineFree (by decide)).2.1,
    (processRequirements_line_frame sampleDateOf sampleRegistry []
      "flask==1.0\nrequests>=2.0\n# note\n" "2020-06-01" 1590969600000
      sampleRegistry_newlineFree (by decide)).2.2
      ["flask==1.0", "requests>=2.0"] "# note" [""] (by decide) (by decide)⟩

/-! ## Lemmas on `civilFromDays` and `isoDay` -/

theorem yearOfEra_step (doe : Nat) : yearOfEra doe ≤ yearOfEra (doe + 1) := by
  unfold yearOfEra
  apply Nat.div_le_div_right
  omega

theorem yearOfEra_mono {a b : Nat} (h : a ≤ b) : yearOfEra a ≤ yearOfEra b := by
  induction b with
  | zero =>
    have : a = 0 := by omega
    subst this
    exact le_refl _
  | succ b ih =>
    by_cases hab : a = b + 1
    · subst hab
      exact le_refl _
    · exact le_trans (ih (by omega)) (yearOfEra_step b)

set_option maxRecDepth 100000 in
theorem yearOfEra_ends :
    ∀ yoe < 400, yearOfEra (yearStart yoe) = yoe ∧ yearOfEra (yearStart (yoe + 1) - 1) = yoe := by
  decide

theorem yearOfEra_spec (doe : Nat) (h : doe < 146097) :
    yearOfEra doe < 400 ∧ yearStart (yearOfEra doe) ≤ doe ∧
      doe ≤ yearStart (yearOfEra doe) + 365 := by
  have h399 : yearOfEra doe ≤ 399 := by
    have hle : doe ≤ 146096 := by omega
    have h1 := yearOfEra_mono hle
    have h2 : yearOfEra 146096 = 399 := by decide
    omega
  refine ⟨by omega, ?_, ?_⟩
  · by_contra hlt
    have hpos : 1 ≤ yearOfEra doe := by
      by_contra h0
      have : yearOfEra doe = 0 := by omega
      rw [this] at hlt
      unfold yearStart at hlt
      omega
    obtain ⟨y, hy⟩ : ∃ y, yearOfEra doe = y + 1 := ⟨yearOfEra doe - 1, by omega⟩
    rw [hy] at hlt
    have hle : doe ≤ yearStart (y + 1) - 1 := by omega
    have h1 := yearOfEra_mono hle
    rw [(yearOfEra_ends y (by omega)).2] at h1
    omega
  · by_contra hgt
    obtain ⟨y, hy⟩ : ∃ y, yearOfEra doe = y := ⟨_, rfl⟩
    rw [hy] at hgt
    have hs : yearStart (y + 1) ≤ yearStart y + 366 := by
      unfold yearStart
      omega
    by_cases hy399 : y = 399
    · subst hy399
      have : yearStart 399 = 145731 := by decide
      omega
    · have hle : yearStart (y + 1) ≤ doe := by omega
      have h1 := yearOfEra_mono hle
      rw [(yearOfEra_ends (y + 1) (by omega)).1] at h1
      omega

theorem civilFromDays_parts (day : Int) :
    ∃ (era : Int) (yoe doy mp : Nat),
      day = era * 146097 + ((yearStart yoe + doy : Nat) : Int) - 719468 ∧
      yoe < 400 ∧ doy ≤ 365 ∧ yearStart yoe + doy < 146097 ∧
      mp = (5 * doy + 2) / 153 ∧ mp ≤ 11 ∧
      (153 * mp + 2) / 5 ≤ doy ∧ doy - (153 * mp + 2) / 5 ≤ 30 ∧
      civilFromDays day =
        (if (if mp < 10 then mp + 3 else mp - 9) ≤ 2 then (yoe : Int) + era * 400 + 1
          else (yoe : Int) + era * 400,
         if mp < 10 then mp + 3 else mp - 9,
         doy - (153 * mp + 2) / 5 + 1) := by
  obtain ⟨doe, hdoe⟩ : ∃ doe : Nat,
      doe = ((day + 719468) - (day + 719468) / 146097 * 146097).toNat := ⟨_, rfl⟩
  have hlt : doe < 146097 := by omega
  obtain ⟨h400, hlo, hhi⟩ := yearOfEra_spec doe hlt
  refine ⟨(day + 719468) / 146097, yearOfEra doe, doe - yearStart (yearOfEra doe),
    (5 * (doe - yearStart (yearOfEra doe)) + 2) / 153, ?_, h400, by omega, by omega, rfl,
    by omega, by omega, by omega, ?_⟩
  · omega
  · simp only [civilFromDays]
    rw [← hdoe]
    rfl

theorem civilFromDays_inj (a b : Int) (h : civilFromDays a = civilFromDays b) : a = b := by
  obtain ⟨era1, yoe1, doy1, mp1, ha, hy1, hd1, hs1, hm1, hmp1, hq1, hr1, hc1⟩ :=
    civilFromDays_parts a
  obtain ⟨era2, yoe2, doy2, mp2, hb, hy2, hd2, hs2, hm2, hmp2, hq2, hr2, hc2⟩ :=
    civilFromDays_parts b
  rw [hc1, hc2] at h
  simp only [Prod.mk.injEq] at h
  obtain ⟨hy, hm, hd⟩ := h
  have hmp : mp1 = mp2 := by
    split_ifs at hm <;> omega
  subst hmp
  have hdoy : doy1 = doy2 := by omega
  subst hdoy
  have hyoe : (yoe1 : Int) + era1 * 400 = (yoe2 : Int) + era2 * 400 := by
    split_ifs at hy <;> omega
  have hera : era1 = era2 := by omega
  subst hera
  have hyoe' : yoe1 = yoe2 := by omega
  subst hyoe'
  omega

theorem civilFromDays_bounds (day : Int) :
    1 ≤ (civilFromDays day).2.1 ∧ (civilFromDays day).2.1 ≤ 12 ∧
    1 ≤ (civilFromDays day).2.2 ∧ (civilFromDays day).2.2 ≤ 31 := by
  obtain ⟨era, yoe, doy, mp, ha, hy, hd, hs, hm, hmp, hq, hr, hc⟩ := civilFromDays_parts day
  rw [hc]
  simp only
  split_ifs <;> omega

theorem civilFromDays_year (day : Int) (hlo : -719528 ≤ day) (hhi : day ≤ 2932896) :
    0 ≤ (civilFromDays day).1 ∧ (civilFromDays day).1 ≤ 9999 := by
  obtain ⟨era, yoe, doy, mp, ha, hy, hd, hs, hm, hmp, hq, hr, hc⟩ := civilFromDays_parts day
  rw [hc]
  simp only
  unfold yearStart at ha hs
  have he1 : -1 ≤ era := by omega
  have he2 : era ≤ 24 := by omega
  have hlow : era = -1 → yoe = 399 ∧ 10 ≤ mp := by
    intro he
    subst he
    have h399 : yoe = 399 := by omega
    subst h399
    exact ⟨rfl, by omega⟩
  have hhigh : era = 24 → yoe = 399 → mp ≤ 9 := by
    intro he h399
    subst he h399
    omega
  by_cases hm1 : era = -1
  · obtain ⟨h399, hmp10⟩ := hlow hm1
    subst hm1 h399
    split_ifs <;> omega
  · by_cases h24 : era = 24
    · by_cases h399 : yoe = 399
      · have := hhigh h24 h399
        subst h24 h399
        split_ifs <;> omega
      · subst h24
        split_ifs <;> omega
    · split_ifs <;> omega

theorem digitChar_inj (a b : Nat) (h : digitChar a = digitChar b) : a % 10 = b % 10 := by
  have key : ∀ x < 10, ∀ y < 10, digitChar x = digitChar y → x = y := by decide
  have ha : digitChar a = digitChar (a % 10) := by simp [digitChar]
  have hb : digitChar b = digitChar (b % 10) := by simp [digitChar]
  rw [ha, hb] at h
  exact key _ (Nat.mod_lt _ (by omega)) _ (Nat.mod_lt _ (by omega)) h

theorem pad2_inj (a b : Nat) (ha : a < 100) (hb : b < 100) (h : pad2 a = pad2 b) : a = b := by
  simp only [pad2, List.cons.injEq, and_true] at h
  have h1 := digitChar_inj _ _ h.1
  have h2 := digitChar_inj _ _ h.2
  omega

theorem pad4_inj (a b : Nat) (ha : a < 10000) (hb : b < 10000) (h : pad4 a = pad4 b) :
    a = b := by
  simp only [pad4, pad2, List.cons.injEq, and_true] at h
  have h1 := digitChar_inj _ _ h.1
  have h2 := digitChar_inj _ _ h.2.1
  have h3 := digitChar_inj _ _ h.2.2.1
  have h4 := digitChar_inj _ _ h.2.2.2
  omega

theorem dayInRange_year (t : Int) (h : DayInRange t) :
    0 ≤ (civilFromDays (t / 86400000)).1 ∧ (civilFromDays (t / 86400000)).1 ≤ 9999 := by
  obtain ⟨-, hlo, hhi⟩ := h
  exact civilFromDays_year _ (by omega) (by omega)

theorem isoDay_inRange (t : Int) (h : DayInRange t) :
    (isoDay t).data = pad4 (civilFromDays (t / 86400000)).1.toNat ++
      '-' :: pad2 (civilFromDays (t / 86400000)).2.1 ++
      '-' :: pad2 (civilFromDays (t / 86400000)).2.2 := by
  have hy := dayInRange_year t h
  unfold isoDay
  simp only [hy, and_self, if_true]
  rfl

theorem isoDay_inj (t1 t2 : Int) (h1 : DayInRange t1) (h2 : DayInRange t2)
    (h : isoDay t1 = isoDay t2) : t1 = t2 := by
  have hd := congrArg String.data h
  rw [isoDay_inRange t1 h1, isoDay_inRange t2 h2] at hd
  have hy1 := dayInRange_year t1 h1
  have hy2 := dayInRange_year t2 h2
  have hb1 := civilFromDays_bounds (t1 / 86400000)
  have hb2 := civilFromDays_bounds (t2 / 86400000)
  obtain ⟨hfront, hrest2⟩ := List.append_inj hd (by simp [pad4_length, pad2_length])
  obtain ⟨hyear, hmonth⟩ := List.append_inj hfront (by simp [pad4_length])
  simp only [List.cons.injEq, true_and] at hrest2 hmonth
  have ey := pad4_inj _ _ (by omega) (by omega) hyear
  have em := pad2_inj _ _ (by omega) (by omega) hmonth
  have ed := pad2_inj _ _ (by omega) (by omega) hrest2
  have hcivil : civilFromDays (t1 / 86400000) = civilFromDays (t2 / 86400000) := by
    apply Prod.ext
    · show (civilFromDays (t1 / 86400000)).1 = (civilFromDays (t2 / 86400000)).1
      omega
    · apply Prod.ext
      · exact em
      · exact ed
  have hday := civilFromDays_inj _ _ hcivil
  obtain ⟨hm1, -, -⟩ := h1
  obtain ⟨hm2, -, -⟩ := h2
  omega

/-! ## Caching and the resolved value: claim C13 -/

theorem coherent_init (reg : String → Response) : Coherent reg World.init := by
  intro key v h
  simp [World.init, Cache.truthy, Cache.empty] at h

theorem call_coherent (reg : String → Response) (w : World) (p : String) (t : Int)
    (hw : Coherent reg w) (ht : DayInRange t) :
    (getPackageVersionAsOfDate (fun _ => reg) w p t).1 = uncached reg p t ∧
    Coherent reg (getPackageVersionAsOfDate (fun _ => reg) w p t).2 := by
  cases hc : w.cache.truthy (cacheKey p t) with
  | some cached =>
    rw [getPackageVersionAsOfDate_hit _ w p t cached hc]
    exact ⟨(hw _ cached hc p t ht rfl).symm, hw⟩
  | none =>
    rw [getPackageVersionAsOfDate_miss _ w p t hc]
    unfold uncached
    cases hu : usableReleases (reg p) with
    | none =>
      refine ⟨rfl, ?_⟩
      intro key v hk
      exact hw key v hk
    | some releases =>
      refine ⟨rfl, ?_⟩
      intro key v hk p' t' ht' hkey
      simp only at hk
      rw [truthy_set] at hk
      by_cases hsame : key = cacheKey p t
      · rw [if_pos hsame] at hk
        obtain ⟨hp, hiso⟩ := cacheKey_inj p' p t' t (hkey.trans hsame)
        have htt := isoDay_inj t' t ht' ht hiso
        subst hp htt
        unfold uncached
        rw [hu]
        show resolve releases t' = some v
        cases hr : resolve releases t' with
        | none => rw [hr] at hk; cases hk
        | some v' =>
          rw [hr] at hk
          simp only at hk
          by_cases hv' : v' = ""
          · rw [if_pos hv'] at hk; cases hk
          · rw [if_neg hv'] at hk
            exact hk
      · rw [if_neg hsame] at hk
        exact hw key v hk p' t' ht' hkey

theorem callResults_uncached (reg : String → Response) (calls : List (String × Int))
    (w : World) (hw : Coherent reg w) (hcalls : ∀ call ∈ calls, DayInRange call.2) :
    callResults (fun _ => reg) w calls = calls.map fun call => uncached reg call.1 call.2 := by
  induction calls generalizing w with
  | nil => rfl
  | cons call rest ih =>
    have h := call_coherent reg w call.1 call.2 hw (hcalls call (List.mem_cons_self _ _))
    simp only [callResults, List.map_cons]
    rw [h.1, ih _ h.2 (fun c hc => hcalls c (List.mem_cons_of_mem _ hc))]

/-- C13, as the claim states it, fails. The two dates are the first and the
second day of the year 10000, at midnight UTC; their cache keys are equal,
since the first ten characters of `toISOString()` end inside the month. The
second call returns the version cached for the first day, `1.0`, while the
uncached resolution at the second day gives `2.0`. -/
theorem cached_value_differs_year_10000 :
    (253402300800000 : Int) % 86400000 = 0 ∧ (253402387200000 : Int) % 86400000 = 0 ∧
    cacheKey "numpy" 253402300800000 = cacheKey "numpy" 253402387200000 ∧
    callResults (fun _ => farFutureReply) World.init
      [("numpy", 253402300800000), ("numpy", 253402387200000)] = [some "1.0", some "1.0"] ∧
    uncached farFutureReply "numpy" 253402387200000 = some "2.0" := by
  decide

/-- C13, amended. For a fixed registry and target dates at midnight UTC of a
day of the years 0000 to 9999, in every sequence of calls of
`getPackageVersionAsOfDate` that starts from the empty cache each call
`(p, D)` returns what the uncached resolution of the registry's reply for `p`
at `D` returns; so two calls with the same inputs return the same value. -/
theorem caching_preserves_value (reg : String → Response) (calls : List (String × Int))
    (hcalls : ∀ call ∈ calls, DayInRange call.2) :
    callResults (fun _ => reg) World.init calls =
      calls.map fun call => uncached reg call.1 call.2 :=
  callResults_uncached reg calls World.init (coherent_init reg) hcalls

/-- An instance: two calls for `flask` at one date, a call for a package
without a release before the date and a call for `flask` at a later date. -/
theorem caching_preserves_value_witness :
    (∀ call ∈ [("flask", (1590969600000 : Int)), ("flask", 1590969600000),
      ("requests", 1590969600000), ("flask", 1620691200000)], DayInRange call.2) ∧
    callResults (fun _ => sampleRegistry 0) World.init
      [("flask", 1590969600000), ("flask", 1590969600000),
        ("requests", 1590969600000), ("flask", 1620691200000)] =
      [some "1.1.2", some "1.1.2", none, some "2.0.0"] ∧
    callResults (fun _ => sampleRegistry 0) World.init
      [("flask", 1590969600000), ("flask", 1590969600000),
        ("requests", 1590969600000), ("flask", 1620691200000)] =
      [("flask", (1590969600000 : Int)), ("flask", 1590969600000),
        ("requests", 1590969600000), ("flask", 1620691200000)].map
        fun call => uncached (sampleRegistry 0) call.1 call.2 := by
  have hcalls : ∀ call ∈ [("flask", (1590969600000 : Int)), ("flask", 1590969600000),
      ("requests", 1590969600000), ("flask", 1620691200000)], DayInRange call.2 := by
    intro call hc
    simp only [List.mem_cons, List.mem_singleton, List.mem_nil_iff, or_false] at hc
    rcases hc with rfl | rfl | rfl | rfl <;> (unfold DayInRange; decide)
  exact ⟨hcalls, by decide, caching_preserves_value (sampleRegistry 0) _ hcalls⟩

/-! ## Lemmas for the second run -/

theorem nameChar_facts (c : Char) (h : nameChar c = true) :
    isJsSpace c = false ∧ c ≠ '=' ∧ c ≠ '+' ∧ c ≠ '#' := by
  have hn : c.toNat ≠ 61 ∧ c.toNat ≠ 43 ∧ c.toNat ≠ 35 ∧ isJsSpace c = false := by
    simp only [nameChar, isJsSpace, Bool.or_eq_true, Bool.and_eq_true, decide_eq_true_eq] at h ⊢
    refine ⟨by omega, by omega, by omega, ?_⟩
    simp only [Bool.or_eq_false_iff, Bool.and_eq_false_iff, decide_eq_false_iff_not]
    omega
  refine ⟨hn.2.2.2, ?_, ?_, ?_⟩
  · rintro rfl
    exact hn.1 (by decide)
  · rintro rfl
    exact hn.2.1 (by decide)
  · rintro rfl
    exact hn.2.2.1 (by decide)

theorem trimChars_dropWhile (s : List Char) :
    ∃ post, s.dropWhile isJsSpace = trimChars s ++ post ∧ ∀ c ∈ post, isJsSpace c = true := by
  refine ⟨((s.dropWhile isJsSpace).reverse.takeWhile isJsSpace).reverse, ?_, ?_⟩
  · have h := congrArg List.reverse
      (List.takeWhile_append_dropWhile isJsSpace (s.dropWhile isJsSpace).reverse)
    rw [List.reverse_append, List.reverse_reverse] at h
    exact h.symm
  · intro c hc
    exact List.mem_takeWhile_imp (List.mem_reverse.1 hc)

theorem trimChars_ne_nil (s : List Char) (h : ∃ c ∈ s, isJsSpace c = false) :
    trimChars s ≠ [] := by
  intro hnil
  obtain ⟨c, hc, hsp⟩ := h
  obtain ⟨pre, post, hs, hpre, hpost, -⟩ := trimChars_spec s
  rw [hnil, List.append_nil] at hs
  rw [hs, List.mem_append] at hc
  rcases hc with hc | hc
  · rw [hpre c hc] at hsp; cases hsp
  · rw [hpost c hc] at hsp; cases hsp

theorem trimChars_head (s : List Char) (h : trimChars s ≠ []) :
    (trimChars s).head? = (s.dropWhile isJsSpace).head? := by
  obtain ⟨post, hd, -⟩ := trimChars_dropWhile s
  rw [hd, List.head?_append]
  cases ht : trimChars s with
  | nil => exact absurd ht h
  | cons c cs => rfl

theorem trimChars_id (s : List Char) (h : ∀ c ∈ s, isJsSpace c = false) : trimChars s = s := by
  obtain ⟨pre, post, hs, hpre, hpost, -⟩ := trimChars_spec s
  have hpre' : pre = [] := by
    cases pre with
    | nil => rfl
    | cons c cs =>
      have h1 := hpre c (List.mem_cons_self _ _)
      have h2 := h c (by rw [hs]; simp)
      rw [h1] at h2
      cases h2
  have hpost' : post = [] := by
    cases post with
    | nil => rfl
    | cons c cs =>
      have h1 := hpost c (List.mem_cons_self _ _)
      have h2 := h c (by rw [hs]; simp)
      rw [h1] at h2
      cases h2
  rw [hpre', hpost', List.nil_append, List.append_nil] at hs
  exact hs.symm

theorem dropWhile_append_head (a rest : List Char) (h : ∃ c ∈ a, isJsSpace c = false) :
    ((a ++ rest).dropWhile isJsSpace).head? = (a.dropWhile isJsSpace).head? := by
  induction a with
  | nil =>
    obtain ⟨c, hc, -⟩ := h
    cases hc
  | cons x xs ih =>
    by_cases hx : isJsSpace x = true
    · have hxs : ∃ c ∈ xs, isJsSpace c = false := by
        obtain ⟨c, hc, hsp⟩ := h
        rcases List.mem_cons.1 hc with rfl | hc
        · rw [hx] at hsp; cases hsp
        · exact ⟨c, hc, hsp⟩
      rw [List.cons_append, List.dropWhile_cons_of_pos hx, List.dropWhile_cons_of_pos hx]
      exact ih hxs
    · rw [List.cons_append, List.dropWhile_cons_of_neg hx, List.dropWhile_cons_of_neg hx]
      rfl

theorem trimChars_has_nonspace (s : List Char) (h : trimChars s ≠ []) :
    ∃ c ∈ s, isJsSpace c = false := by
  obtain ⟨pre, post, hs, -, -, hhead, -⟩ := trimChars_spec s
  cases ht : trimChars s with
  | nil => exact absurd ht h
  | cons c cs =>
    refine ⟨c, ?_, hhead c (by rw [ht]; rfl)⟩
    rw [hs, ht]
    simp

theorem trim_prefix_head (a rest : List Char) (h : trimChars a ≠ []) :
    (trimChars a).head? = (trimChars (a ++ rest)).head? := by
  obtain ⟨c, hc, hsp⟩ := trimChars_has_nonspace a h
  have hfull : trimChars (a ++ rest) ≠ [] :=
    trimChars_ne_nil _ ⟨c, List.mem_append_left _ hc, hsp⟩
  rw [trimChars_head a h, trimChars_head _ hfull, dropWhile_append_head a rest ⟨c, hc, hsp⟩]

theorem parseWith_head (ops : List String) (hops : ∀ op ∈ ops, op ≠ "") (line : String)
    (h : parseWith ops line ≠ "") :
    (parseWith ops line).data.head? = (trim line).data.head? := by
  induction ops with
  | nil => rfl
  | cons o rest ih =>
    unfold parseWith at h ⊢
    by_cases ho : includes line o = true
    · rw [if_pos ho] at h ⊢
      obtain ⟨⟨b, hb⟩, -⟩ := split_head_beforeFirst line o (hops o (List.mem_cons_self _ _)) ho
      have hne : trimChars ((split line o).headD "").data ≠ [] := by
        intro hnil
        apply h
        exact String.ext hnil
      have hd : line.data = ((split line o).headD "").data ++ (o.data ++ b.data) := by
        have := congrArg String.data hb
        simpa [String.data_append, List.append_assoc] using this
      show (trimChars _).head? = (trimChars line.data).head?
      rw [hd]
      exact trim_prefix_head _ _ hne
    · rw [if_neg ho] at h ⊢
      exact ih (fun op hop => hops op (List.mem_cons_of_mem _ hop)) h

theorem parsePackageName_pinned (n v : String) (hn : NameOk n) :
    parsePackageName (n ++ "==" ++ v) = n := by
  have hinc : includes (n ++ "==" ++ v) "==" = true :=
    (includes_iff_occurs _ _).2 ⟨n, v, rfl⟩
  obtain ⟨⟨b, hb⟩, hmin⟩ := split_head_beforeFirst (n ++ "==" ++ v) "==" (by decide) hinc
  have hlen := hmin n v rfl
  have hd : n.data ++ ('=' :: '=' :: v.data) =
      ((split (n ++ "==" ++ v) "==").headD "").data ++ ('=' :: '=' :: b.data) := by
    have := congrArg String.data hb
    simpa [String.data_append, List.append_assoc] using this
  have hhead : ((split (n ++ "==" ++ v) "==").headD "").data = n.data := by
    rcases List.append_eq_append_iff.1 hd with ⟨a', ha, -⟩ | ⟨c', hc, hrest⟩
    · have hl := congrArg List.length ha
      rw [List.length_append] at hl
      have hlen' : ((split (n ++ "==" ++ v) "==").headD "").data.length ≤ n.data.length := hlen
      have : a' = [] := List.length_eq_zero.1 (by omega)
      rw [ha, this, List.append_nil]
    · cases c' with
      | nil => rw [hc, List.append_nil]
      | cons x xs =>
        simp only [List.cons_append, List.cons.injEq] at hrest
        have hx : x ∈ n.data := by rw [hc]; simp
        have := (nameChar_facts x (hn x hx)).2.1
        exact absurd hrest.1.symm this
  unfold parsePackageName
  rw [if_pos hinc]
  have htrim : trimChars n.data = n.data :=
    trimChars_id _ (fun c hc => (nameChar_facts c (hn c hc)).1)
  exact String.ext (by show trimChars _ = n.data; rw [hhead, htrim])

theorem trim_pinned (n v : String) (hn : NameOk n) (hne : n ≠ "") :
    ∃ a', (trim (n ++ "==" ++ v)).data = n.data ++ '=' :: '=' :: a' := by
  have hX : (n ++ "==" ++ v).data = (n.data ++ ['=', '=']) ++ v.data := by
    simp [String.data_append, List.append_assoc]
  obtain ⟨c0, cs, hcs⟩ : ∃ c0 cs, n.data = c0 :: cs := by
    cases hnd : n.data with
    | nil => exact absurd (String.ext hnd) hne
    | cons c0 cs => exact ⟨c0, cs, rfl⟩
  have hc0 : isJsSpace c0 = false :=
    (nameChar_facts c0 (hn c0 (by rw [hcs]; simp))).1
  obtain ⟨post, hdrop, hpost⟩ := trimChars_dropWhile (n ++ "==" ++ v).data
  have hdw : (n ++ "==" ++ v).data.dropWhile isJsSpace = (n ++ "==" ++ v).data := by
    rw [hX, hcs]
    simp [List.dropWhile, hc0]
  rw [hdw, hX] at hdrop
  have hshow : ∀ a', trimChars (n.data ++ ['=', '='] ++ v.data) = n.data ++ ['=', '='] ++ a' →
      (trim (n ++ "==" ++ v)).data = n.data ++ '=' :: '=' :: a' := by
    intro a' ha
    show trimChars (n ++ "==" ++ v).data = _
    rw [hX, ha]
    simp
  rcases List.append_eq_append_iff.1 hdrop with ⟨a', ha, -⟩ | ⟨c', hc, hrest⟩
  · exact ⟨a', hshow a' ha⟩
  · cases c' with
    | nil =>
      rw [List.append_nil] at hc
      exact ⟨[], hshow [] (by rw [← hc]; simp)⟩
    | cons x xs =>
      have hxpost : x ∈ post := by rw [hrest]; simp
      have hxsp := hpost x hxpost
      have hx : x ∈ n.data ++ ['=', '='] := by rw [hc]; simp
      rcases List.mem_append.1 hx with hx | hx
      · rw [(nameChar_facts x (hn x hx)).1] at hxsp
        cases hxsp
      · simp only [List.mem_cons, List.mem_singleton, List.mem_nil_iff, or_false, or_self] at hx
        subst hx
        exact absurd hxsp (by decide)

theorem isRequirementLine_pinned (n v : String) (hn : NameOk n) (hne : n ≠ "")
    (hdash : n.data.head? ≠ some '-') : isRequirementLine (n ++ "==" ++ v) = true := by
  obtain ⟨a', ha⟩ := trim_pinned n v hn hne
  obtain ⟨c0, cs, hcs⟩ : ∃ c0 cs, n.data = c0 :: cs := by
    cases hnd : n.data with
    | nil => exact absurd (String.ext hnd) hne
    | cons c0 cs => exact ⟨c0, cs, rfl⟩
  have hmem : ∀ c ∈ c0 :: cs, c ≠ '+' ∧ c ≠ '#' := by
    intro c hc
    have := nameChar_facts c (hn c (by rw [hcs]; exact hc))
    exact ⟨this.2.2.1, this.2.2.2⟩
  have h0 : c0 ≠ '-' := by
    intro h
    apply hdash
    rw [hcs, h]
    rfl
  have hne' : trim (n ++ "==" ++ v) ≠ "" := by
    intro h
    rw [h, hcs] at ha
    simp at ha
  unfold isRequirementLine startsWith
  rw [hcs] at ha
  simp only [hne', ha, ne_eq, not_false_eq_true, decide_True, Bool.true_and, Bool.and_eq_true,
    Bool.not_eq_true']
  have hhash := (hmem c0 (List.mem_cons_self _ _)).2
  refine ⟨⟨?_, ?_⟩, ?_⟩
  · simp [List.isPrefixOf, Ne.symm hhash]
  · simp [List.isPrefixOf, Ne.symm h0]
  · cases cs with
    | nil => simp [List.isPrefixOf]
    | cons c1 cs1 =>
      cases cs1 with
      | nil => simp [List.isPrefixOf]
      | cons c2 cs2 =>
        cases cs2 with
        | nil => simp [List.isPrefixOf]
        | cons c3 cs3 =>
          have h3 := (hmem c3 (by simp)).1
          simp [List.isPrefixOf, Ne.symm h3]

theorem startsWith_dash (s : String) (h : startsWith s "-" = false) :
    s.data.head? ≠ some '-' := by
  unfold startsWith at h
  cases hs : s.data with
  | nil => simp
  | cons c cs =>
    rw [hs] at h
    intro hc
    simp only [List.head?_cons, Option.some.injEq] at hc
    subst hc
    simp [List.isPrefixOf] at h

theorem isRequirementLine_no_dash (line : String) (h : isRequirementLine line = true) :
    startsWith (trim line) "-" = false := by
  unfold isRequirementLine at h
  simp only [Bool.and_eq_true, Bool.not_eq_true'] at h
  exact h.1.2

theorem pin_idem (f : String → Option String)
    (hf : ∀ p v, f p = some v → v ≠ "" → NameOk p) (line : String) :
    pin f (pin f line) = pin f line := by
  by_cases hreq : isRequirementLine line = true
  · by_cases hname : parsePackageName line = ""
    · have h : pin f line = line := by simp [pin, hreq, hname]
      rw [h, h]
    · cases hfn : f (parsePackageName line) with
      | none =>
        have h : pin f line = line := by simp [pin, hreq, hname, hfn]
        rw [h, h]
      | some v =>
        by_cases hv : v = ""
        · have h : pin f line = line := by simp [pin, hreq, hname, hfn, hv]
          rw [h, h]
        · have h : pin f line = parsePackageName line ++ "==" ++ v := by
            simp [pin, hreq, hname, hfn, hv]
          rw [h]
          have hn := hf _ v hfn hv
          have hdash : (parsePackageName line).data.head? ≠ some '-' := by
            rw [parsePackageName_eq_parseWith,
              parseWith_head operators (by decide) line
                (by rw [← parsePackageName_eq_parseWith]; exact hname)]
            exact startsWith_dash _ (isRequirementLine_no_dash line hreq)
          have hreq' := isRequirementLine_pinned (parsePackageName line) v hn hname hdash
          have hname' := parsePackageName_pinned (parsePackageName line) v hn
          simp [pin, hreq', hname', hname, hfn, hv]
  · have h : pin f line = line := by simp [pin, hreq]
    rw [h, h]

theorem pin_newlineFree (f : String → Option String)
    (hf : ∀ p v, f p = some v → v ≠ "" → NewlineFree v) (line : String)
    (hl : NewlineFree line) : NewlineFree (pin f line) := by
  unfold pin
  by_cases hreq : isRequirementLine line = true
  · by_cases hname : parsePackageName line = ""
    · simpa [hreq, hname] using hl
    · cases hfn : f (parsePackageName line) with
      | none => simpa [hreq, hname, hfn] using hl
      | some v =>
        by_cases hv : v = ""
        · simpa [hreq, hname, hfn, hv] using hl
        · simp only [hreq, hname, hv, Bool.not_true, Bool.false_eq_true, if_false]
          exact append_newlineFree _ _
            (append_newlineFree _ _ (parsePackageName_newlineFree line hl)
              (by unfold NewlineFree; decide))
            (hf _ v hfn hv)
  · simpa [hreq] using hl

theorem call_answer (reg : String → Response) (w : World) (p : String) (t : Int) :
    (getPackageVersionAsOfDate (fun _ => reg) w p t).1 = answer reg t w p := by
  unfold answer
  cases hc : w.cache.truthy (cacheKey p t) with
  | some cached => rw [getPackageVersionAsOfDate_hit _ w p t cached hc]
  | none =>
    rw [getPackageVersionAsOfDate_miss _ w p t hc]
    unfold uncached
    cases usableReleases (reg p) <;> rfl

theorem answer_call (reg : String → Response) (w : World) (q : String) (t : Int) (p : String) :
    answer reg t (getPackageVersionAsOfDate (fun _ => reg) w q t).2 p = answer reg t w p := by
  cases hc : w.cache.truthy (cacheKey q t) with
  | some cached => rw [getPackageVersionAsOfDate_hit _ w q t cached hc]
  | none =>
    rw [getPackageVersionAsOfDate_miss _ w q t hc]
    cases hu : usableReleases (reg q) with
    | none => rfl
    | some releases =>
      unfold answer
      simp only
      rw [truthy_set]
      by_cases hk : cacheKey p t = cacheKey q t
      · have hp : p = q := (cacheKey_inj p q t t hk).1
        subst hp
        rw [if_pos rfl, hc]
        have hun : uncached reg p t = resolve releases t := by
          unfold uncached
          rw [hu]
        rw [hun]
        cases hr : resolve releases t with
        | none => rfl
        | some v =>
          by_cases hv : v = ""
          · simp [hv]
          · simp [hv]
      · rw [if_neg hk]

theorem call_cachePlain (reg : String → Response) (hreg : PlainRegistry reg) (w : World)
    (q : String) (t0 : Int) (hw : CachePlain w) :
    CachePlain (getPackageVersionAsOfDate (fun _ => reg) w q t0).2 := by
  cases hc : w.cache.truthy (cacheKey q t0) with
  | some cached =>
    rw [getPackageVersionAsOfDate_hit _ w q t0 cached hc]
    exact hw
  | none =>
    rw [getPackageVersionAsOfDate_miss _ w q t0 hc]
    cases hu : usableReleases (reg q) with
    | none => exact hw
    | some releases =>
      intro p t v hk
      simp only at hk
      rw [truthy_set] at hk
      by_cases hkey : cacheKey p t = cacheKey q t0
      · rw [if_pos hkey] at hk
        have hp : p = q := (cacheKey_inj p q t t0 hkey).1
        subst hp
        have hun : uncached reg p t0 = resolve releases t0 := by
          unfold uncached
          rw [hu]
        cases hr : resolve releases t0 with
        | none => rw [hr] at hk; cases hk
        | some v' =>
          rw [hr] at hk
          simp only at hk
          by_cases hv' : v' = ""
          · rw [if_pos hv'] at hk; cases hk
          · rw [if_neg hv'] at hk
            cases hk
            have := hreg p t0 v (hun.trans hr)
            exact ⟨this.1, this.2.2⟩
      · rw [if_neg hkey] at hk
        exact hw p t v hk

theorem cachePlain_init : CachePlain World.init := by
  intro p t v h
  simp [World.init, Cache.truthy, Cache.empty] at h

theorem runCalls_cachePlain (reg : String → Response) (hreg : PlainRegistry reg)
    (calls : List (String × Int)) (w : World) (hw : CachePlain w) :
    CachePlain (runCalls (fun _ => reg) w calls) := by
  induction calls generalizing w with
  | nil => exact hw
  | cons call rest ih => exact ih _ (call_cachePlain reg hreg w call.1 call.2 hw)

theorem answer_plain (reg : String → Response) (hreg : PlainRegistry reg) (w : World)
    (hw : CachePlain w) (t : Int) (p v : String) (h : answer reg t w p = some v) :
    NameOk p ∧ NewlineFree v := by
  unfold answer at h
  cases hc : w.cache.truthy (cacheKey p t) with
  | some cached =>
    rw [hc] at h
    simp only [Option.some.injEq] at h
    subst h
    exact hw p t cached hc
  | none =>
    rw [hc] at h
    have := hreg p t v h
    exact ⟨this.1, this.2.2⟩

theorem processLine_pin (reg : String → Response) (t : Int) (w : World) (line : String) :
    (processLine (fun _ => reg) t w line).1 = pin (answer reg t w) line ∧
    ∀ p, answer reg t (processLine (fun _ => reg) t w line).2 p = answer reg t w p := by
  unfold processLine pin
  by_cases hreq : isRequirementLine line = true
  · by_cases hname : parsePackageName line = ""
    · simp [hreq, hname]
    · have h1 := call_answer reg w (parsePackageName line) t
      have h2 := answer_call reg w (parsePackageName line) t
      unfold processSinglePackage
      rcases hr : getPackageVersionAsOfDate (fun _ => reg) w (parsePackageName line) t with
        ⟨res, w1⟩
      rw [hr] at h1 h2
      simp only at h1 h2
      rw [← h1]
      cases res with
      | none => simpa [hreq, hname, hr] using h2
      | some v =>
        by_cases hv : v = ""
        · simpa [hreq, hname, hv, hr] using h2
        · simpa [hreq, hname, hv, hr] using h2
  · simp [hreq]

theorem processLines_pin (reg : String → Response) (t : Int) (lines : List String) (w : World) :
    (processLines (fun _ => reg) t w lines).1 = lines.map (pin (answer reg t w)) ∧
    ∀ p, answer reg t (processLines (fun _ => reg) t w lines).2 p = answer reg t w p := by
  induction lines generalizing w with
  | nil => exact ⟨rfl, fun _ => rfl⟩
  | cons line rest ih =>
    have h1 := processLine_pin reg t w line
    have h2 := ih (processLine (fun _ => reg) t w line).2
    have hfun : answer reg t (processLine (fun _ => reg) t w line).2 = answer reg t w :=
      funext h1.2
    rw [hfun] at h2
    refine ⟨?_, ?_⟩
    · simp only [processLines, List.map_cons]
      rw [h1.1, h2.1]
    · intro p
      simp only [processLines]
      rw [h2.2 p]

theorem sampleRegistry_plain : PlainRegistry (sampleRegistry 0) := by
  intro p t v h
  unfold uncached sampleRegistry at h
  by_cases h1 : p = "flask"
  · subst h1
    simp only [if_true, usableReleases, Response.okStatus] at h
    obtain ⟨infos, -, hm, -⟩ := resolve_some_spec _ t v h
    simp only [List.mem_cons, Prod.mk.injEq, List.mem_singleton, List.mem_nil_iff,
      or_false] at hm
    refine ⟨by unfold NameOk; decide, ?_⟩
    rcases hm with ⟨rfl, -⟩ | ⟨rfl, -⟩ <;> exact ⟨by decide, by unfold NewlineFree; decide⟩
  · by_cases h2 : p = "requests"
    · subst h2
      simp only [if_true, usableReleases, Response.okStatus] at h
      obtain ⟨infos, -, hm, -⟩ := resolve_some_spec _ t v h
      simp only [List.mem_cons, Prod.mk.injEq, List.mem_singleton, List.mem_nil_iff,
        or_false] at hm
      refine ⟨by unfold NameOk; decide, ?_⟩
      obtain ⟨rfl, -⟩ := hm
      exact ⟨by decide, by unfold NewlineFree; decide⟩
    · simp [h1, h2, usableReleases] at h

/-! ## A second run changes nothing: claim C16 -/

/-- C16. For a fixed registry that resolves only names made of letters,
digits, `.`, `_` and `-`, and only to non-empty versions without a line feed,
for every document and every target date that parses, in every state the
process can reach: running `processRequirements` on the output of
`processRequirements`, with the same date and in the state the first run
left, returns that output unchanged. -/
theorem processRequirements_idempotent (dateOf : String → Option Int)
    (reg : String → Response) (calls : List (String × Int)) (text dateStr : String)
    (targetDate : Int) (hreg : PlainRegistry reg)
    (hdate : parseDate dateOf dateStr = some targetDate) :
    (processRequirements dateOf (fun _ => reg)
      (processRequirements dateOf (fun _ => reg)
        (runCalls (fun _ => reg) World.init calls) text dateStr).2
      (processRequirements dateOf (fun _ => reg)
        (runCalls (fun _ => reg) World.init calls) text dateStr).1 dateStr).1 =
    (processRequirements dateOf (fun _ => reg)
      (runCalls (fun _ => reg) World.init calls) text dateStr).1 := by
  have hw : CachePlain (runCalls (fun _ => reg) World.init calls) :=
    runCalls_cachePlain reg hreg calls World.init cachePlain_init
  have hfirst := processLines_pin reg targetDate (split text "\n")
    (runCalls (fun _ => reg) World.init calls)
  have hr1 : processRequirements dateOf (fun _ => reg)
      (runCalls (fun _ => reg) World.init calls) text dateStr =
      (join "\n" ((split text "\n").map
        (pin (answer reg targetDate (runCalls (fun _ => reg) World.init calls)))),
       (processLines (fun _ => reg) targetDate (runCalls (fun _ => reg) World.init calls)
        (split text "\n")).2) := by
    unfold processRequirements
    rw [hdate]
    simp only
    rw [hfirst.1]
  rw [hr1]
  simp only
  have hplain := answer_plain reg hreg _ hw targetDate
  have hfree : ∀ x ∈ (split text "\n").map
      (pin (answer reg targetDate (runCalls (fun _ => reg) World.init calls))),
      NewlineFree x := by
    intro x hx
    obtain ⟨line, hl, rfl⟩ := List.mem_map.1 hx
    exact pin_newlineFree _ (fun p v h _ => (hplain p v h).2) line
      (split_newlineFree text line hl)
  have hne : (split text "\n").map
      (pin (answer reg targetDate (runCalls (fun _ => reg) World.init calls))) ≠ [] := by
    intro h
    exact split_ne_nil text (List.map_eq_nil_iff.1 h)
  have hsplit := split_join _ hne hfree
  have hsecond := processLines_pin reg targetDate
    ((split text "\n").map
      (pin (answer reg targetDate (runCalls (fun _ => reg) World.init calls))))
    (processLines (fun _ => reg) targetDate (runCalls (fun _ => reg) World.init calls)
      (split text "\n")).2
  have hfun : answer reg targetDate
      (processLines (fun _ => reg) targetDate (runCalls (fun _ => reg) World.init calls)
        (split text "\n")).2 =
      answer reg targetDate (runCalls (fun _ => reg) World.init calls) := funext hfirst.2
  rw [hfun] at hsecond
  unfold processRequirements
  rw [hdate]
  simp only
  rw [hsplit, hsecond.1, List.map_map]
  congr 1
  apply List.map_congr_left
  intro line _
  exact pin_idem _ (fun p v h _ => (hplain p v h).1) line

/-- An instance: the output of the end-to-end example, run again, comes back
unchanged. -/
theorem processRequirements_idempotent_witness :
    (processRequirements sampleDateOf (fun _ => sampleRegistry 0) World.init
      "flask>=1.0\nrequests>=2.0\n# note\n" "2020-06-01").1 =
      "flask==1.1.2\nrequests>=2.0\n# note\n" ∧
    (processRequirements sampleDateOf (fun _ => sampleRegistry 0)
      (processRequirements sampleDateOf (fun _ => sampleRegistry 0)
        (runCalls (fun _ => sampleRegistry 0) World.init [])
        "flask>=1.0\nrequests>=2.0\n# note\n" "2020-06-01").2
      (processRequirements sampleDateOf (fun _ => sampleRegistry 0)
        (runCalls (fun _ => sampleRegistry 0) World.init [])
        "flask>=1.0\nrequests>=2.0\n# note\n" "2020-06-01").1 "2020-06-01").1 =
    (processRequirements sampleDateOf (fun _ => sampleRegistry 0)
      (runCalls (fun _ => sampleRegistry 0) World.init [])
      "flask>=1.0\nrequests>=2.0\n# note\n" "2020-06-01").1 :=
  ⟨by decide,
    processRequirements_idempotent sampleDateOf (sampleRegistry 0) []
      "flask>=1.0\nrequests>=2.0\n# note\n" "2020-06-01" 1590969600000
      sampleRegistry_plain (by decide)⟩

/-! ## The cache key: claim C17 -/

/-- C17. The cache key is injective: for package names `p1`, `p2` and strings
`d1`, `d2` of ten characters, `p1 ++ "_" ++ d1 = p2 ++ "_" ++ d2` implies
`p1 = p2` and `d1 = d2`. The date part of a key built on line 24 has ten
characters, so two calls with the same key have the same package name and the
same date part; for dates that `YYYY-MM-DD` names they have the same date. -/
theorem cacheKey_injective :
    (∀ p1 p2 d1 d2 : String, d1.length = 10 → d2.length = 10 →
      p1 ++ "_" ++ d1 = p2 ++ "_" ++ d2 → p1 = p2 ∧ d1 = d2) ∧
    (∀ (p : String) (targetDate : Int),
      cacheKey p targetDate = p ++ "_" ++ isoDay targetDate ∧
      (isoDay targetDate).length = 10) ∧
    (∀ (p1 p2 : String) (t1 t2 : Int), cacheKey p1 t1 = cacheKey p2 t2 →
      p1 = p2 ∧ isoDay t1 = isoDay t2) ∧
    ∀ (p1 p2 : String) (t1 t2 : Int), DayInRange t1 → DayInRange t2 →
      cacheKey p1 t1 = cacheKey p2 t2 → p1 = p2 ∧ t1 = t2 :=
  ⟨key_string_inj, fun _ t => ⟨rfl, isoDay_length t⟩, cacheKey_inj,
    fun p1 p2 t1 t2 h1 h2 h =>
      ⟨(cacheKey_inj p1 p2 t1 t2 h).1, isoDay_inj t1 t2 h1 h2 (cacheKey_inj p1 p2 t1 t2 h).2⟩⟩

/-- An instance: a package name that contains `_` and a date-like tail does
not collide with a shorter name. -/
theorem cacheKey_injective_witness :
    ("2020-06-01" : String).length = 10 ∧ ("2020-06-02" : String).length = 10 ∧
    cacheKey "a_2020-06-01" 1591056000000 = "a_2020-06-01" ++ "_" ++ "2020-06-02" ∧
    cacheKey "a_2020-06-01" 1591056000000 ≠ cacheKey "a" 1590969600000 ∧
    (∀ p1 p2 : String, p1 ++ "_" ++ "2020-06-01" = p2 ++ "_" ++ "2020-06-02" →
      p1 = p2 ∧ ("2020-06-01" : String) = "2020-06-02") :=
  ⟨by decide, by decide, by decide, by decide,
    fun p1 p2 h => cacheKey_injective.1 p1 p2 "2020-06-01" "2020-06-02"
      (by decide) (by decide) h⟩

/-! ## The batch processor: claims C6 and C7 -/

theorem split_output (dateOf : String → Option Int) (registry : Registry)
    (calls : List (String × Int)) (text dateStr : String) (targetDate : Int)
    (hreg : VersionsNewlineFree registry)
    (hdate : parseDate dateOf dateStr = some targetDate) :
    split (processRequirements dateOf registry (runCalls registry World.init calls)
        text dateStr).1 "\n" =
      (processLines registry targetDate (runCalls registry World.init calls)
        (split text "\n")).1 := by
  have hw : CacheNewlineFree (runCalls registry World.init calls) :=
    runCalls_newlineFree registry hreg calls World.init cacheNewlineFree_init
  have hfree := (processLines_newlineFree registry targetDate hreg (split text "\n")
    (runCalls registry World.init calls) hw (split_newlineFree text)).1
  have hlen := processLines_length registry targetDate (split text "\n")
    (runCalls registry World.init calls)
  have hne : (processLines registry targetDate (runCalls registry World.init calls)
      (split text "\n")).1 ≠ [] := by
    intro h
    rw [h] at hlen
    exact split_ne_nil text (List.length_eq_zero.1 hlen.symm)
  have hout : (processRequirements dateOf registry (runCalls registry World.init calls)
      text dateStr).1 = join "\n" (processLines registry targetDate
        (runCalls registry World.init calls) (split text "\n")).1 := by
    unfold processRequirements
    rw [hdate]
  rw [hout]
  exact split_join _ hne hfree

/-- C6, as the claim states it, fails, in three ways. With a registry whose
only version identifier is the empty string, the line `flask==1.0` is
accepted and its package resolves to that version, yet the output keeps
`flask==1.0` instead of `flask==`. The accepted line `>=2.0` has the empty
package name, which a registry may resolve to `7`, yet the output keeps
`>=2.0` instead of `==7`: no resolution is attempted for an empty name. And
when the version of `a` holds a line feed, the line `b>=1` at position 1 of
the document `a`, `b>=1`, `# c` resolves to `7`, yet line 1 of the output is
`2` and `b==7` stands at line 2. -/
theorem processRequirements_not_always_pinned :
    (isRequirementLine "flask==1.0" = true ∧
      (getPackageVersionAsOfDate emptyVersionRegistry World.init
        (parsePackageName "flask==1.0") 1590969600000).1 = some "" ∧
      (processRequirements sampleDateOf emptyVersionRegistry World.init
        "flask==1.0" "2020-06-01").1 = "flask==1.0" ∧
      (processRequirements sampleDateOf emptyVersionRegistry World.init
        "flask==1.0" "2020-06-01").1 ≠ parsePackageName "flask==1.0" ++ "==" ++ "") ∧
    (isRequirementLine ">=2.0" = true ∧
      (getPackageVersionAsOfDate sevenRegistry World.init
        (parsePackageName ">=2.0") 1590969600000).1 = some "7" ∧
      (processRequirements sampleDateOf sevenRegistry World.init
        ">=2.0" "2020-06-01").1 = ">=2.0" ∧
      (processRequirements sampleDateOf sevenRegistry World.init
        ">=2.0" "2020-06-01").1 ≠ parsePackageName ">=2.0" ++ "==" ++ "7") ∧
    (split "a\nb>=1\n# c" "\n" = ["a"] ++ "b>=1" :: ["# c"] ∧
      isRequirementLine "b>=1" = true ∧
      (getPackageVersionAsOfDate lineFeedRegistry
        (processLines lineFeedRegistry 1590969600000 World.init ["a"]).2
        (parsePackageName "b>=1") 1590969600000).1 = some "7" ∧
      (processRequirements sampleDateOf lineFeedRegistry World.init
        "a\nb>=1\n# c" "2020-06-01").1 = "a==1\n2\nb==7\n# c" ∧
      (split (processRequirements sampleDateOf lineFeedRegistry World.init
        "a\nb>=1\n# c" "2020-06-01").1 "\n")[["a"].length]? = some "2" ∧
      (split (processRequirements sampleDateOf lineFeedRegistry World.init
        "a\nb>=1\n# c" "2020-06-01").1 "\n")[["a"].length]? ≠
        some (parsePackageName "b>=1" ++ "==" ++ "7")) := by
  decide

/-- C6, amended. For a target date that parses and a registry whose version
identifiers have no line feed, in every state the process can reach, a line
of the document that `isRequirementLine` accepts, whose extracted name is not
empty and whose package resolves, in the state reached after the lines before
it, to a non-empty version `v`, is replaced in the output, at the same line
position, by `parsePackageName line ++ "==" ++ v`; the output has one line
for each line of the input. -/
theorem processRequirements_pins (dateOf : String → Option Int) (registry : Registry)
    (calls : List (String × Int)) (text dateStr : String) (targetDate : Int)
    (pre post : List String) (line v : String)
    (hreg : VersionsNewlineFree registry)
    (hdate : parseDate dateOf dateStr = some targetDate)
    (hlines : split text "\n" = pre ++ line :: post)
    (hreq : isRequirementLine line = true)
    (hname : parsePackageName line ≠ "")
    (hv : (getPackageVersionAsOfDate registry
      (processLines registry targetDate (runCalls registry World.init calls) pre).2
      (parsePackageName line) targetDate).1 = some v)
    (hne : v ≠ "") :
    (split (processRequirements dateOf registry (runCalls registry World.init calls)
        text dateStr).1 "\n").length = (split text "\n").length ∧
    (split (processRequirements dateOf registry (runCalls registry World.init calls)
        text dateStr).1 "\n")[pre.length]? =
      some (parsePackageName line ++ "==" ++ v) := by
  rw [split_output dateOf registry calls text dateStr targetDate hreg hdate]
  refine ⟨processLines_length _ _ _ _, ?_⟩
  rw [hlines, processLines_at, processLine_resolved registry targetDate _ line v hreq hname hv hne]
  have hlen := processLines_length registry targetDate pre (runCalls registry World.init calls)
  rw [List.getElem?_append_right (by omega)]
  simp [hlen]

/-- An instance: the end-to-end example of the specification, where line 0 of
the output is `flask==1.1.2`. -/
theorem processRequirements_pins_witness :
    (processRequirements sampleDateOf sampleRegistry World.init
      "flask==1.0\nrequests>=2.0\n# note\n" "2020-06-01").1 =
      "flask==1.1.2\nrequests>=2.0\n# note\n" ∧
    (split (processRequirements sampleDateOf sampleRegistry
        (runCalls sampleRegistry World.init [])
        "flask==1.0\nrequests>=2.0\n# note\n" "2020-06-01").1 "\n").length =
      (split "flask==1.0\nrequests>=2.0\n# note\n" "\n").length ∧
    (split (processRequirements sampleDateOf sampleRegistry
        (runCalls sampleRegistry World.init [])
        "flask==1.0\nrequests>=2.0\n# note\n" "2020-06-01").1
      "\n")[([] : List String).length]? =
      some (parsePackageName "flask==1.0" ++ "==" ++ "1.1.2") :=
  ⟨by decide,
    processRequirements_pins sampleDateOf sampleRegistry []
      "flask==1.0\nrequests>=2.0\n# note\n" "2020-06-01" 1590969600000
      [] ["requests>=2.0", "# note", ""] "flask==1.0" "1.1.2"
      sampleRegistry_newlineFree
      (by decide) (by decide) (by decide) (by decide) (by decide) (by decide)⟩

/-- C7, as the claim states it, fails. In the document `a`, `c>=1` the
package of the requirement line `c>=1` at position 1 is not found and its
resolution yields `null`; the version of `a` holds a line feed, so the output
has three lines for two input lines, line 1 of the output is `2`, and the
kept line stands at line 2. -/
theorem processRequirements_line_feed_moves_kept_line :
    split "a\nc>=1" "\n" = ["a"] ++ "c>=1" :: [] ∧
    isRequirementLine "c>=1" = true ∧
    (getPackageVersionAsOfDate lineFeedRegistry
      (processLines lineFeedRegistry 1590969600000 World.init ["a"]).2
      (parsePackageName "c>=1") 1590969600000).1 = none ∧
    (processRequirements sampleDateOf lineFeedRegistry World.init
      "a\nc>=1" "2020-06-01").1 = "a==1\n2\nc>=1" ∧
    (split (processRequirements sampleDateOf lineFeedRegistry World.init
      "a\nc>=1" "2020-06-01").1 "\n").length = 3 ∧
    (split "a\nc>=1" "\n").length = 2 ∧
    (split (processRequirements sampleDateOf lineFeedRegistry World.init
      "a\nc>=1" "2020-06-01").1 "\n")[["a"].length]? = some "2" ∧
    (split (processRequirements sampleDateOf lineFeedRegistry World.init
      "a\nc>=1" "2020-06-01").1 "\n")[["a"].length]? ≠ some "c>=1" := by
  decide

/-- C7, amended. For a target date that parses and a registry whose version
identifiers have no line feed, in every state the process can reach, when the
resolution of the package of a requirement line yields `null`, in the state
reached after the lines before it, the output holds the original line at the
same line position, between the results of the lines before it and the
results of the lines after it, which are processed from the state the failed
resolution left; the output has one line for each line of the input. -/
theorem processRequirements_keeps_unresolved (dateOf : String → Option Int)
    (registry : Registry) (calls : List (String × Int)) (text dateStr : String)
    (targetDate : Int) (pre post : List String) (line : String)
    (hreg : VersionsNewlineFree registry)
    (hdate : parseDate dateOf dateStr = some targetDate)
    (hlines : split text "\n" = pre ++ line :: post)
    (_hreq : isRequirementLine line = true)
    (hv : (getPackageVersionAsOfDate registry
      (processLines registry targetDate (runCalls registry World.init calls) pre).2
      (parsePackageName line) targetDate).1 = none) :
    (split (processRequirements dateOf registry (runCalls registry World.init calls)
        text dateStr).1 "\n").length = (split text "\n").length ∧
    (split (processRequirements dateOf registry (runCalls registry World.init calls)
        text dateStr).1 "\n")[pre.length]? = some line ∧
    split (processRequirements dateOf registry (runCalls registry World.init calls)
        text dateStr).1 "\n" =
      (processLines registry targetDate (runCalls registry World.init calls) pre).1 ++
        line ::
        (processLines registry targetDate
          (processLine registry targetDate
            (processLines registry targetDate (runCalls registry World.init calls) pre).2
            line).2
          post).1 := by
  rw [split_output dateOf registry calls text dateStr targetDate hreg hdate]
  have hat : (processLines registry targetDate (runCalls registry World.init calls)
      (split text "\n")).1 =
      (processLines registry targetDate (runCalls registry World.init calls) pre).1 ++
        line ::
        (processLines registry targetDate
          (processLine registry targetDate
            (processLines registry targetDate (runCalls registry World.init calls) pre).2
            line).2
          post).1 := by
    rw [hlines, processLines_at, processLine_unresolved registry targetDate _ line hv]
  refine ⟨processLines_length _ _ _ _, ?_, hat⟩
  rw [hat]
  have hlen := processLines_length registry targetDate pre (runCalls registry World.init calls)
  rw [List.getElem?_append_right (by omega)]
  simp [hlen]

/-- An instance: in the end-to-end example `requests` has no release before
the date and its line stays at line 1 of the output. -/
theorem processRequirements_keeps_unresolved_witness :
    (getPackageVersionAsOfDate sampleRegistry
      (processLines sampleRegistry 1590969600000 (runCalls sampleRegistry World.init [])
        ["flask==1.0"]).2
      (parsePackageName "requests>=2.0") 1590969600000).1 = none ∧
    (split (processRequirements sampleDateOf sampleRegistry
        (runCalls sampleRegistry World.init [])
        "flask==1.0\nrequests>=2.0\n# note\n" "2020-06-01").1 "\n").length =
      (split "flask==1.0\nrequests>=2.0\n# note\n" "\n").length ∧
    (split (processRequirements sampleDateOf sampleRegistry
        (runCalls sampleRegistry World.init [])
        "flask==1.0\nrequests>=2.0\n# note\n" "2020-06-01").1
      "\n")[["flask==1.0"].length]? = some "requests>=2.0" :=
  ⟨by decide,
    (processRequirements_keeps_unresolved sampleDateOf sampleRegistry []
      "flask==1.0\nrequests>=2.0\n# note\n" "2020-06-01" 1590969600000
      ["flask==1.0"] ["# note", ""] "requests>=2.0"
      sampleRegistry_newlineFree (by decide) (by decide) (by decide) (by decide)).1,
    (processRequirements_keeps_unresolved sampleDateOf sampleRegistry []
      "flask==1.0\nrequests>=2.0\n# note\n" "2020-06-01" 1590969600000
      ["flask==1.0"] ["# note", ""] "requests>=2.0"
      sampleRegistry_newlineFree (by decide) (by decide) (by decide) (by decide)).2.1⟩

end PipTimeMachine
